import Mathlib

/-!
# Verification of the cmdvault fuzzy search and ranking core

This file is a shallow embedding, in Lean 4, of the fuzzy search subsystem of
`cmdvault` (`cmdvault/utils.py`): the subsequence matcher `fuzzy_match`, the
scorer `fuzzy_score` (which delegates to Python's
`difflib.SequenceMatcher(None, a, b).ratio()`, modelled here in full,
including the `autojunk` heuristic), and the ranking pipeline
`filter_commands_fuzzy`.

Strings are modelled as `List Char`; Python `str.lower` is modelled by
per-character ASCII lowercasing (Lean's `Char.toLower`), and `str.strip` by
removing leading and trailing whitespace characters.  Floating point ratios
are modelled as exact rationals: `difflib`'s ratio is `2.0 * M / T` for
integers `M`, `T`, modelled as the rational `2 * M / T`.
-/

namespace CmdVault

/-- Strings, modelled as lists of characters. -/
abbrev Str := List Char

/-- Coercion from Lean string literals to our string model. -/
def strOf (s : String) : Str := s.data

/-- The whitespace characters removed by Python `str.strip()`
(space, tab, newline, carriage return, vertical tab, form feed). -/
def pySpace (c : Char) : Bool :=
  c.toNat = 32 || c.toNat = 9 || c.toNat = 10 || c.toNat = 13 ||
    c.toNat = 11 || c.toNat = 12

/-- Python `s.strip()`: remove leading and trailing whitespace. -/
def strip (s : Str) : Str :=
  ((s.dropWhile pySpace).reverse.dropWhile pySpace).reverse

/-- Python `s.lower()`: lowercase each character. -/
def lower (s : Str) : Str := s.map Char.toLower

/-!
## The Matcher: `fuzzy_match`

Python source (`cmdvault/utils.py`):
```
def fuzzy_match(query, target):
    if not query.strip():
        return True
    q = query.lower().strip()
    t = target.lower()
    idx = 0
    for c in q:
        pos = t.find(c, idx)
        if pos == -1:
            return False
        idx = pos + 1
    return True
```
-/

/-- Scan `s` for the first occurrence of `c`, reporting its position; `p` is
the absolute position of the head of `s`. -/
def findCharAux : Str → Char → Nat → Option Nat
  | [], _, _ => none
  | d :: ds, c, p => if d = c then some p else findCharAux ds c (p + 1)

/-- Python `t.find(c, idx)`: position of the first occurrence of `c` in `t`
at or after `idx` (`none` for Python's `-1`). -/
def strFind (t : Str) (c : Char) (idx : Nat) : Option Nat :=
  findCharAux (t.drop idx) c idx

/-- The greedy scan loop of `fuzzy_match`: for each query character take its
first occurrence at or after the cursor. -/
def fmGo (t : Str) : Str → Nat → Bool
  | [], _ => true
  | c :: cs, idx =>
    match strFind t c idx with
    | none => false
    | some pos => fmGo t cs (pos + 1)

/-- `fuzzy_match(query, target)` from `cmdvault/utils.py`. -/
def fuzzy_match (query target : Str) : Bool :=
  if strip query = [] then true
  else fmGo (lower target) (strip (lower query)) 0

/-!
### Correctness of the greedy subsequence scan
-/

theorem findCharAux_none {s : Str} {c : Char} {p : Nat}
    (h : findCharAux s c p = none) : c ∉ s := by
  induction s generalizing p with
  | nil => simp
  | cons d ds ih =>
    simp only [findCharAux] at h
    split at h
    · exact absurd h (by simp)
    · next hne =>
      simp only [List.mem_cons, not_or]
      exact ⟨fun hc => hne hc.symm, ih h⟩

theorem findCharAux_some {s : Str} {c : Char} {p pos : Nat}
    (h : findCharAux s c p = some pos) :
    p ≤ pos ∧ ∃ pre suf, s = pre ++ c :: suf ∧ c ∉ pre ∧
      pre.length = pos - p := by
  induction s generalizing p with
  | nil => simp [findCharAux] at h
  | cons d ds ih =>
    simp only [findCharAux] at h
    split at h
    · next heq =>
      cases h
      exact ⟨Nat.le_refl _, [], ds, by simp [heq], by simp, by simp⟩
    · next hne =>
      obtain ⟨h1, pre, suf, hsplit, hfree, hlen⟩ := ih h
      refine ⟨by omega, d :: pre, suf, by simp [hsplit], ?_, by simp [hlen]; omega⟩
      simp only [List.mem_cons, not_or]
      exact ⟨fun hc => hne hc.symm, hfree⟩

/-- If the head of a list to the right of a `c`-free prefix is `c`, a
subsequence starting with `c` embeds iff its tail embeds to the right. -/
theorem cons_sublist_of_free {c : Char} {cs pre suf : Str}
    (hfree : c ∉ pre) :
    (c :: cs).Sublist (pre ++ c :: suf) ↔ cs.Sublist suf := by
  induction pre with
  | nil => simp only [List.nil_append]; exact List.cons_sublist_cons
  | cons d ds ih =>
    have hdc : ¬ (c = d) := fun h => hfree (by simp [h])
    have hfree2 : c ∉ ds := fun hm => hfree (by simp [hm])
    constructor
    · intro h
      cases h with
      | cons _ htail => exact (ih hfree2).mp htail
      | cons₂ => exact absurd rfl hdc
    · intro h
      exact (List.cons_sublist_cons.mpr h).trans
        (List.sublist_append_right (d :: ds) (c :: suf))

/-- The greedy scan from cursor `idx` succeeds iff the remaining query is a
subsequence of the target beyond the cursor. -/
theorem fmGo_iff_sublist (t : Str) (q : Str) :
    ∀ idx, fmGo t q idx = true ↔ q.Sublist (t.drop idx) := by
  induction q with
  | nil => intro idx; simp [fmGo]
  | cons c cs ih =>
    intro idx
    simp only [fmGo]
    rcases hf : strFind t c idx with _ | pos
    · simp only [strFind] at hf
      have hnm : c ∉ t.drop idx := findCharAux_none hf
      constructor
      · intro h; simp at h
      · intro h; exact absurd (h.subset (by simp)) hnm
    · simp only [strFind] at hf
      obtain ⟨h1, pre, suf, hsplit, hfree, hlen⟩ := findCharAux_some hf
      have hdrop : t.drop (pos + 1) = suf := by
        have h2 : t.drop (pos + 1) = (t.drop idx).drop (pre.length + 1) := by
          rw [List.drop_drop]
          congr 1
          omega
        have h3 : pre.length + 1 = (pre ++ [c]).length := by simp
        rw [h2, hsplit, List.append_cons, h3]
        exact List.drop_left (pre ++ [c]) suf
      rw [ih (pos + 1), hdrop, hsplit]
      exact (cons_sublist_of_free hfree).symm

/-- Lowercasing preserves whitespace-ness of a character. -/
theorem pySpace_toLower (c : Char) : pySpace c.toLower = pySpace c := by
  simp only [Char.toLower]
  split
  · next h =>
    have hv : (c.toNat + 32).isValidChar := Or.inl (by omega)
    have hval : (Char.ofNat (c.toNat + 32)).toNat = c.toNat + 32 := by
      unfold Char.ofNat
      rw [dif_pos hv]
      unfold Char.ofNatAux Char.toNat
      simp [UInt32.toNat, UInt32.ofNatCore]
    have hL : pySpace (Char.ofNat (c.toNat + 32)) = false := by
      simp only [pySpace, hval, Bool.or_eq_false_iff, decide_eq_false_iff_not]
      omega
    have hR : pySpace c = false := by
      simp only [pySpace, Bool.or_eq_false_iff, decide_eq_false_iff_not]
      omega
    rw [hL, hR]
  · rfl

/-- Stripping commutes with lowercasing. -/
theorem strip_lower (s : Str) : strip (lower s) = lower (strip s) := by
  have hpf : (pySpace ∘ Char.toLower) = pySpace := funext pySpace_toLower
  unfold strip lower
  rw [List.dropWhile_map, hpf, ← List.map_reverse, List.dropWhile_map, hpf,
    ← List.map_reverse]

/-- C1: `fuzzy_match(query, target)` returns true iff the trimmed query is
empty, or the case-folded trimmed query is a subsequence (order-preserving,
gaps allowed) of the case-folded target — equivalently, iff there is a
strictly increasing sequence of positions in the target (an order
embedding) carrying the query characters — so the greedy leftmost scan
succeeds whenever any increasing-position assignment exists; in particular
`matches("gco", "git commit")` is true, `matches("ocg", "git commit")` is
false, and `matches("GCO", "Git Commit")` is true. -/
theorem fuzzy_match_iff_subsequence :
    (∀ q t : Str, fuzzy_match q t = true ↔
      (strip q = [] ∨ (lower (strip q)).Sublist (lower t))) ∧
    (∀ q t : Str, (lower (strip q)).Sublist (lower t) ↔
      ∃ f : Fin (lower (strip q)).length ↪o Fin (lower t).length,
        ∀ ix, (lower (strip q)).get ix = (lower t).get (f ix)) ∧
    fuzzy_match (strOf "gco") (strOf "git commit") = true ∧
    fuzzy_match (strOf "ocg") (strOf "git commit") = false ∧
    fuzzy_match (strOf "GCO") (strOf "Git Commit") = true := by
  refine ⟨?_,
    fun q t => List.sublist_iff_exists_fin_orderEmbedding_get_eq,
    by decide, by decide, by decide⟩
  intro q t
  unfold fuzzy_match
  split
  · next h => simp [h]
  · next h =>
    rw [fmGo_iff_sublist, List.drop_zero, strip_lower]
    constructor
    · intro hs
      exact Or.inr hs
    · rintro (hempty | hs)

      · exact absurd hempty h
      · exact hs

/-!
## The Scorer: `fuzzy_score`

Python source (`cmdvault/utils.py`):
```
def fuzzy_score(query, target):
    if not query.strip():
        return 1.0
    return difflib.SequenceMatcher(None, query.lower(), target.lower()).ratio()
```

`difflib.SequenceMatcher(None, a, b)` is modelled below in full detail:
with `isjunk = None` the junk set `bjunk` is empty, but `autojunk` is on,
so for `len(b) >= 200` every element of `b` occurring more than
`len(b) // 100 + 1` times is "popular" and excluded from the index `b2j`.
`find_longest_match` runs the dynamic-programming scan over `b2j`, then
extends the best block on both ends by equal characters (the two loops
guarded by `isbjunk` never fire since `bjunk` is empty and are therefore
not modelled).  `ratio()` sums the sizes of the matching blocks obtained by
recursing on both sides of each longest match and returns `2*M/T`.
We work on list slices instead of `(alo, ahi, blo, bhi)` ranges; the
popularity predicate of the original `b` is passed down unchanged.
-/

/-- The `autojunk` popularity test of `SequenceMatcher.__chain_b`:
for `len(b) >= 200`, characters occurring more than `len(b)//100 + 1`
times are dropped from the index. -/
def popularB (b : Str) (c : Char) : Bool :=
  decide (200 ≤ b.length) && decide (b.length / 100 + 1 < b.count c)

/-- The index `b2j`: for each character, the ascending list of its positions
in `b`, with popular characters removed. -/
def b2j (b : Str) (pop : Char → Bool) (c : Char) : List Nat :=
  if pop c then []
  else (List.range b.length).filter (fun j => decide (b.get? j = some c))

/-- Lookup in a `j → length` row with default 0 (Python `j2len.get(j, 0)`). -/
def lk : List (Nat × Nat) → Nat → Nat
  | [], _ => 0
  | (j, v) :: rest, j0 => if j0 = j then v else lk rest j0

/-- The new run length at position `j`:
Python `k = j2len.get(j-1, 0) + 1` (for `j = 0`, `j-1` is `-1`, absent). -/
def rowK (prev : List (Nat × Nat)) : Nat → Nat
  | 0 => 1
  | j0 + 1 => lk prev j0 + 1

/-- One row of the `find_longest_match` scan: process the `b`-positions of
`a[i]` left to right, building the new `j2len` row and updating the best
block (Python records `(i-k+1, j-k+1, k)` whenever `k > bestsize`). -/
def procRow (i : Nat) (prev : List (Nat × Nat)) :
    List Nat → Nat × Nat × Nat → List (Nat × Nat) × (Nat × Nat × Nat)
  | [], best => ([], best)
  | j :: rest, best =>
    let k := rowK prev j
    let best1 := if best.2.2 < k then (i + 1 - k, j + 1 - k, k) else best
    let out := procRow i prev rest best1
    ((j, k) :: out.1, out.2)

/-- The outer loop of `find_longest_match` over the rows of `a`. -/
def dpLoop (jl : Char → List Nat) :
    Str → Nat → List (Nat × Nat) → Nat × Nat × Nat → Nat × Nat × Nat
  | [], _, _, best => best
  | c :: cs, i, prev, best =>
    let out := procRow i prev (jl c) best
    dpLoop jl cs (i + 1) out.1 out.2

/-- The dynamic-programming part of `find_longest_match`. -/
def findCore (a b : Str) (pop : Char → Bool) : Nat × Nat × Nat :=
  dpLoop (b2j b pop) a 0 [] (0, 0, 0)

/-- Backward extension of the best block by equal characters
(`while besti > alo and bestj > blo and a[besti-1] == b[bestj-1]`). -/
def extendBack (a b : Str) : Nat → Nat → Nat → Nat × Nat × Nat
  | 0, bj, bs => (0, bj, bs)
  | bi + 1, 0, bs => (bi + 1, 0, bs)
  | bi + 1, bj + 1, bs =>
    match a.get? bi, b.get? bj with
    | some x, some y =>
      if x = y then extendBack a b bi bj (bs + 1) else (bi + 1, bj + 1, bs)
    | _, _ => (bi + 1, bj + 1, bs)

/-- Forward extension, fuelled: the loop advances `bs` only while
`bi + bs < a.length`, so `a.length - (bi + bs)` is an exact iteration
count. -/
def extendFwdF (a b : Str) (bi bj : Nat) : Nat → Nat → Nat
  | 0, bs => bs
  | f + 1, bs =>
    if bi + bs < a.length ∧ bj + bs < b.length ∧
        a.get? (bi + bs) = b.get? (bj + bs) then
      extendFwdF a b bi bj f (bs + 1)
    else bs

/-- Forward extension of the best block by equal characters
(`while besti+bestsize < ahi and bestj+bestsize < bhi and ...`). -/
def extendFwd (a b : Str) (bi bj bs : Nat) : Nat :=
  extendFwdF a b bi bj (a.length - (bi + bs)) bs

/-- The while-loop equation for `extendFwd`. -/
theorem extendFwd_eq (a b : Str) (bi bj bs : Nat) :
    extendFwd a b bi bj bs
      = if bi + bs < a.length ∧ bj + bs < b.length ∧
            a.get? (bi + bs) = b.get? (bj + bs) then
          extendFwd a b bi bj (bs + 1)
        else bs := by
  unfold extendFwd
  rcases hf : a.length - (bi + bs) with _ | f
  · rw [if_neg (fun h => absurd h.1 (by omega))]
    rfl
  · simp only [extendFwdF]
    by_cases hg : bi + bs < a.length ∧ bj + bs < b.length ∧
        a.get? (bi + bs) = b.get? (bj + bs)
    · rw [if_pos hg, if_pos hg]
      have : f = a.length - (bi + (bs + 1)) := by omega
      rw [this]
    · rw [if_neg hg, if_neg hg]

/-- `find_longest_match` on a pair of slices: DP scan, then backward and
forward extension. -/
def findLM (a b : Str) (pop : Char → Bool) : Nat × Nat × Nat :=
  let c := findCore a b pop
  let e := extendBack a b c.1 c.2.1 c.2.2
  (e.1, e.2.1, extendFwd a b e.1 e.2.1 e.2.2)

/-!
### Bounds on the best block, needed for termination of the recursion on
matching blocks.
-/

theorem lk_bound {prev : List (Nat × Nat)} {i : Nat}
    (hprev : ∀ p ∈ prev, p.2 ≤ i ∧ p.2 ≤ p.1 + 1) (j : Nat) :
    lk prev j ≤ i ∧ lk prev j ≤ j + 1 := by
  induction prev with
  | nil => simp [lk]
  | cons p rest ih =>
    obtain ⟨j1, v⟩ := p
    have hp := hprev (j1, v) (by simp)
    simp only [lk]
    split
    · next hj => exact ⟨hp.1, by omega⟩
    · exact ih (fun q hq => hprev q (by simp [hq]))

theorem procRow_bound (la lb : Nat) {i : Nat} {prev : List (Nat × Nat)}
    (hprev : ∀ p ∈ prev, p.2 ≤ i ∧ p.2 ≤ p.1 + 1) (hi : i < la) :
    ∀ (jlist : List Nat) (best : Nat × Nat × Nat),
    (∀ j ∈ jlist, j < lb) →
    best.1 + best.2.2 ≤ la → best.2.1 + best.2.2 ≤ lb →
    (∀ p ∈ (procRow i prev jlist best).1, p.2 ≤ i + 1 ∧ p.2 ≤ p.1 + 1) ∧
      (procRow i prev jlist best).2.1 + (procRow i prev jlist best).2.2.2 ≤ la ∧
      (procRow i prev jlist best).2.2.1 + (procRow i prev jlist best).2.2.2 ≤ lb := by
  intro jlist
  induction jlist with
  | nil => intro best _ h1 h2; exact ⟨by simp [procRow], by simpa [procRow] using h1, by simpa [procRow] using h2⟩
  | cons j rest ih =>
    intro best hj h1 h2
    have hk : rowK prev j ≤ i + 1 ∧ rowK prev j ≤ j + 1 := by
      match j with
      | 0 => exact ⟨by simp [rowK], by simp [rowK]⟩
      | j0 + 1 =>
        have := lk_bound hprev j0
        simp only [rowK]
        exact ⟨by omega, by omega⟩
    simp only [procRow]
    have hjlb : j < lb := hj j (by simp)
    set k := rowK prev j with hkdef
    set best1 := if best.2.2 < k then (i + 1 - k, j + 1 - k, k) else best with hb1
    have hb1a : best1.1 + best1.2.2 ≤ la ∧ best1.2.1 + best1.2.2 ≤ lb := by
      rw [hb1]
      split
      · exact ⟨by simp; omega, by simp; omega⟩
      · exact ⟨h1, h2⟩
    have hrec := ih best1 (fun x hx => hj x (by simp [hx])) hb1a.1 hb1a.2
    refine ⟨?_, hrec.2.1, hrec.2.2⟩
    intro p hp
    rcases List.mem_cons.mp hp with rfl | hp2
    · exact ⟨hk.1, hk.2⟩
    · exact hrec.1 p hp2

theorem dpLoop_bound {lb : Nat} (jl : Char → List Nat)
    (hjl : ∀ c, ∀ j ∈ jl c, j < lb) :
    ∀ (cs : Str) (la i : Nat) (prev : List (Nat × Nat)) (best : Nat × Nat × Nat),
    i + cs.length = la →
    (∀ p ∈ prev, p.2 ≤ i ∧ p.2 ≤ p.1 + 1) →
    best.1 + best.2.2 ≤ la → best.2.1 + best.2.2 ≤ lb →
    (dpLoop jl cs i prev best).1 + (dpLoop jl cs i prev best).2.2 ≤ la ∧
      (dpLoop jl cs i prev best).2.1 + (dpLoop jl cs i prev best).2.2 ≤ lb := by
  intro cs
  induction cs with
  | nil => intro la i prev best _ _ h1 h2; exact ⟨h1, h2⟩
  | cons c cs ih =>
    intro la i prev best hlen hprev h1 h2
    simp only [dpLoop]
    have hi : i < la := by simp at hlen; omega
    have hpr := procRow_bound la lb hprev hi (jl c) best
      (fun j hj => hjl c j hj) h1 h2
    have hprev2 : ∀ p ∈ (procRow i prev (jl c) best).1, p.2 ≤ i + 1 ∧ p.2 ≤ p.1 + 1 :=
      hpr.1
    exact ih la (i + 1) _ _ (by simp at hlen ⊢; omega) hprev2 hpr.2.1 hpr.2.2

theorem b2j_lt (b : Str) (pop : Char → Bool) (c : Char) :
    ∀ j ∈ b2j b pop c, j < b.length := by
  intro j hj
  unfold b2j at hj
  split at hj
  · simp at hj
  · exact List.mem_range.mp (List.mem_of_mem_filter hj)

theorem findCore_bound (a b : Str) (pop : Char → Bool) :
    (findCore a b pop).1 + (findCore a b pop).2.2 ≤ a.length ∧
      (findCore a b pop).2.1 + (findCore a b pop).2.2 ≤ b.length := by
  exact dpLoop_bound (b2j b pop) (b2j_lt b pop) a a.length 0 [] (0, 0, 0)
    (by simp) (by simp) (by simp) (by simp)

theorem extendBack_sum (a b : Str) : ∀ bi bj bs,
    (extendBack a b bi bj bs).1 + (extendBack a b bi bj bs).2.2 = bi + bs ∧
      (extendBack a b bi bj bs).2.1 + (extendBack a b bi bj bs).2.2 = bj + bs := by
  intro bi
  induction bi with
  | zero => intro bj bs; simp [extendBack]
  | succ bi ih =>
    intro bj bs
    match bj with
    | 0 => simp [extendBack]
    | bj + 1 =>
      simp only [extendBack]
      match a.get? bi, b.get? bj with
      | some x, some y =>
        simp only
        split
        · have := ih bj (bs + 1)
          omega
        · simp
      | some _, none => simp
      | none, some _ => simp
      | none, none => simp

theorem extendFwd_bound (a b : Str) (bi bj : Nat) : ∀ bs,
    bi + bs ≤ a.length → bj + bs ≤ b.length →
    bs ≤ extendFwd a b bi bj bs ∧
      bi + extendFwd a b bi bj bs ≤ a.length ∧
      bj + extendFwd a b bi bj bs ≤ b.length := by
  have H : ∀ n bs, a.length - (bi + bs) ≤ n → bi + bs ≤ a.length →
      bj + bs ≤ b.length →
      bs ≤ extendFwd a b bi bj bs ∧
        bi + extendFwd a b bi bj bs ≤ a.length ∧
        bj + extendFwd a b bi bj bs ≤ b.length := by
    intro n
    induction n with
    | zero =>
      intro bs h0 h1 h2
      rw [extendFwd_eq]
      split
      · next h => exact absurd h.1 (by omega)
      · exact ⟨Nat.le_refl _, h1, h2⟩
    | succ n ih =>
      intro bs h0 h1 h2
      rw [extendFwd_eq]
      split
      · next h =>
        have := ih (bs + 1) (by omega) (by omega) (by omega)
        exact ⟨by omega, this.2.1, this.2.2⟩
      · exact ⟨Nat.le_refl _, h1, h2⟩
  exact fun bs => H a.length bs (by omega)

theorem findLM_bound (a b : Str) (pop : Char → Bool) :
    (findLM a b pop).1 + (findLM a b pop).2.2 ≤ a.length ∧
      (findLM a b pop).2.1 + (findLM a b pop).2.2 ≤ b.length := by
  unfold findLM
  have hc := findCore_bound a b pop
  have he := extendBack_sum a b (findCore a b pop).1 (findCore a b pop).2.1
    (findCore a b pop).2.2
  have hf := extendFwd_bound a b
    (extendBack a b (findCore a b pop).1 (findCore a b pop).2.1 (findCore a b pop).2.2).1
    (extendBack a b (findCore a b pop).1 (findCore a b pop).2.1 (findCore a b pop).2.2).2.1
    (extendBack a b (findCore a b pop).1 (findCore a b pop).2.1 (findCore a b pop).2.2).2.2
    (by omega) (by omega)
  exact ⟨hf.2.1, hf.2.2⟩

/-- The `get_matching_blocks` recursion, fuelled: every recursive call
strictly decreases `a.length + b.length` (by `findLM_bound`), so fuel
`a.length + b.length` is always sufficient and the zero-fuel base case is
only reached on two empty strings, where the result is 0 anyway. -/
def matchesTotalF (pop : Char → Bool) : Nat → Str → Str → Nat
  | 0, _, _ => 0
  | f + 1, a, b =>
    if (findLM a b pop).2.2 = 0 then 0
    else
      matchesTotalF pop f (a.take (findLM a b pop).1)
          (b.take (findLM a b pop).2.1)
        + (findLM a b pop).2.2
        + matchesTotalF pop f
            (a.drop ((findLM a b pop).1 + (findLM a b pop).2.2))
            (b.drop ((findLM a b pop).2.1 + (findLM a b pop).2.2))

/-- `get_matching_blocks`: total size of all matching blocks, by recursing
on both sides of each longest match (`ratio` only uses the sum of sizes). -/
def matchesTotal (a b : Str) (pop : Char → Bool) : Nat :=
  matchesTotalF pop (a.length + b.length) a b

theorem matchesTotalF_le (pop : Char → Bool) :
    ∀ (f : Nat) (a b : Str),
    matchesTotalF pop f a b ≤ a.length ∧ matchesTotalF pop f a b ≤ b.length := by
  intro f
  induction f with
  | zero => intro a b; simp [matchesTotalF]
  | succ f ih =>
    intro a b
    have hb := findLM_bound a b pop
    simp only [matchesTotalF]
    split
    · simp
    · next hk =>
      have h1 := ih (a.take (findLM a b pop).1) (b.take (findLM a b pop).2.1)
      have h2 := ih (a.drop ((findLM a b pop).1 + (findLM a b pop).2.2))
        (b.drop ((findLM a b pop).2.1 + (findLM a b pop).2.2))
      simp only [List.length_take, List.length_drop] at h1 h2
      constructor <;> omega

theorem matchesTotal_le (a b : Str) (pop : Char → Bool) :
    matchesTotal a b pop ≤ a.length ∧ matchesTotal a b pop ≤ b.length :=
  matchesTotalF_le pop (a.length + b.length) a b

/-!
### The invariant of the dynamic-programming scan

`kfun a jl i j` is the run length the scan associates to cell `(i, j)`:
the length of the longest block of indexed (`jl`-visible) matches ending at
row `i`, column `j`.  The scan visits cells in row-major order
(`restPairs`), and the accumulator is always the first visited cell whose
run length equals the running maximum (`BestInv`).
-/

/-- Cell `(i, j)` is visible: column `j` is indexed for the character at
row `i`. -/
def visB (a : Str) (jl : Char → List Nat) (i j : Nat) : Bool :=
  match a.get? i with
  | some c => decide (j ∈ jl c)
  | none => false

/-- The run length ending at cell `(i, j)`. -/
def kfun (a : Str) (jl : Char → List Nat) : Nat → Nat → Nat
  | 0, j => if visB a jl 0 j then 1 else 0
  | i + 1, 0 => if visB a jl (i + 1) 0 then 1 else 0
  | i + 1, j + 1 => if visB a jl (i + 1) (j + 1) then kfun a jl i j + 1 else 0

/-- The previous row of run lengths, as a function (row `-1` is zero). -/
def prevK (a : Str) (jl : Char → List Nat) : Nat → Nat → Nat
  | 0, _ => 0
  | i + 1, j => kfun a jl i j

/-- The cells visited while scanning row `i` for character `c`. -/
def rowPairs (jl : Char → List Nat) (c : Char) (i : Nat) : List (Nat × Nat) :=
  (jl c).map (fun j => (i, j))

/-- The cells visited by the remaining rows `cs`, starting at row `i`. -/
def restPairs (jl : Char → List Nat) : Str → Nat → List (Nat × Nat)
  | [], _ => []
  | c :: cs, i => rowPairs jl c i ++ restPairs jl cs (i + 1)

/-- The accumulator invariant: `best` bounds every visited run length, and
(unless still `(0,0,0)`) records the first visited cell achieving the
running maximum, as `(i+1-k, j+1-k, k)`. -/
def BestInv (a : Str) (jl : Char → List Nat) (S : List (Nat × Nat))
    (best : Nat × Nat × Nat) : Prop :=
  (∀ p ∈ S, kfun a jl p.1 p.2 ≤ best.2.2) ∧
  (best.2.2 = 0 → best = (0, 0, 0)) ∧
  (best.2.2 ≠ 0 → ∃ S1 p S2, S = S1 ++ p :: S2 ∧
    kfun a jl p.1 p.2 = best.2.2 ∧
    (∀ q ∈ S1, kfun a jl q.1 q.2 < best.2.2) ∧
    best = (p.1 + 1 - best.2.2, p.2 + 1 - best.2.2, best.2.2))

theorem kfun_of_not_vis {a : Str} {jl : Char → List Nat} {i j : Nat}
    (h : visB a jl i j = false) : kfun a jl i j = 0 := by
  match i, j with
  | 0, j => simp [kfun, h]
  | i + 1, 0 => simp [kfun, h]
  | i + 1, j + 1 => simp [kfun, h]

theorem vis_of_kfun_pos {a : Str} {jl : Char → List Nat} {i j : Nat}
    (h : kfun a jl i j ≠ 0) : visB a jl i j = true := by
  cases hv : visB a jl i j
  · exact absurd (kfun_of_not_vis hv) h
  · rfl

theorem BestInv_append {a : Str} {jl : Char → List Nat}
    {S : List (Nat × Nat)} {best : Nat × Nat × Nat} (i j : Nat)
    (hinv : BestInv a jl S best) :
    BestInv a jl (S ++ [(i, j)])
      (if best.2.2 < kfun a jl i j then
        (i + 1 - kfun a jl i j, j + 1 - kfun a jl i j, kfun a jl i j)
      else best) := by
  obtain ⟨h1, h2, h3⟩ := hinv
  split
  · next hlt =>
    refine ⟨?_, ?_, ?_⟩
    · intro p hp
      rcases List.mem_append.mp hp with hp2 | hp2
      · exact le_of_lt (lt_of_le_of_lt (h1 p hp2) hlt)
      · simp at hp2
        simp [hp2]
    · intro hz
      simp at hz
      omega
    · intro _
      exact ⟨S, (i, j), [], rfl, rfl,
        fun q hq => lt_of_le_of_lt (h1 q hq) hlt, rfl⟩
  · next hge =>
    refine ⟨?_, h2, ?_⟩
    · intro p hp
      rcases List.mem_append.mp hp with hp2 | hp2
      · exact h1 p hp2
      · simp at hp2
        simp only [hp2]
        omega
    · intro hz
      obtain ⟨S1, p, S2, hS, hk, hfirst, hform⟩ := h3 hz
      exact ⟨S1, p, S2 ++ [(i, j)], by rw [hS]; simp, hk, hfirst, hform⟩

theorem rowK_eq_kfun {a : Str} {jl : Char → List Nat}
    {prev : List (Nat × Nat)} {i j : Nat}
    (hprev : ∀ j0, lk prev j0 = prevK a jl i j0)
    (hvis : visB a jl i j = true) :
    rowK prev j = kfun a jl i j := by
  match i, j with
  | 0, 0 => simp [rowK, kfun, hvis]
  | 0, j0 + 1 => simp [rowK, kfun, hvis, hprev j0, prevK]
  | i0 + 1, 0 => simp [rowK, kfun, hvis]
  | i0 + 1, j0 + 1 => simp [rowK, kfun, hvis, hprev j0, prevK]

theorem procRow_inv {a : Str} {jl : Char → List Nat} {i : Nat} {c : Char}
    (hget : a.get? i = some c) {prev : List (Nat × Nat)}
    (hprev : ∀ j0, lk prev j0 = prevK a jl i j0) :
    ∀ (jlist : List Nat) (S : List (Nat × Nat)) (best : Nat × Nat × Nat),
    (∀ j ∈ jlist, j ∈ jl c) →
    BestInv a jl S best →
    (∀ j0, lk (procRow i prev jlist best).1 j0
        = if j0 ∈ jlist then kfun a jl i j0 else 0) ∧
    BestInv a jl (S ++ jlist.map (fun j => (i, j)))
      (procRow i prev jlist best).2 := by
  intro jlist
  induction jlist with
  | nil =>
    intro S best _ hinv
    constructor
    · intro j0
      simp [procRow, lk]
    · simpa [procRow] using hinv
  | cons j rest ih =>
    intro S best hsub hinv
    have hvis : visB a jl i j = true := by
      unfold visB
      rw [hget]
      simp [hsub j (by simp)]
    have hkeq : rowK prev j = kfun a jl i j := rowK_eq_kfun hprev hvis
    have hstep := BestInv_append i j hinv
    rw [← hkeq] at hstep
    have hrec := ih (S ++ [(i, j)])
      (if best.2.2 < rowK prev j then
        (i + 1 - rowK prev j, j + 1 - rowK prev j, rowK prev j)
      else best)
      (fun x hx => hsub x (by simp [hx])) hstep
    constructor
    · intro j0
      by_cases hj : j0 = j
      · subst hj
        simp only [procRow, lk, if_pos rfl]
        rw [hkeq]
        simp
      · simp only [procRow, lk, if_neg hj]
        rw [hrec.1 j0]
        simp [List.mem_cons, hj]
    · have := hrec.2
      simpa [List.append_assoc] using this

theorem dpLoop_inv (a : Str) (jl : Char → List Nat) :
    ∀ (cs : Str) (i : Nat) (prev : List (Nat × Nat))
      (best : Nat × Nat × Nat) (S : List (Nat × Nat)),
    a.drop i = cs →
    (∀ j0, lk prev j0 = prevK a jl i j0) →
    BestInv a jl S best →
    BestInv a jl (S ++ restPairs jl cs i) (dpLoop jl cs i prev best) := by
  intro cs
  induction cs with
  | nil =>
    intro i prev best S _ _ hinv
    simpa [restPairs, dpLoop] using hinv
  | cons c cs ih =>
    intro i prev best S hdrop hprev hinv
    have hget : a.get? i = some c := by
      have h0 : (a.drop i).get? 0 = a.get? (i + 0) := List.get?_drop a i 0
      rw [hdrop] at h0
      simpa using h0.symm
    simp only [dpLoop]
    have hpr := procRow_inv hget hprev (jl c) S best (fun j hj => hj) hinv
    have hprev2 : ∀ j0,
        lk (procRow i prev (jl c) best).1 j0 = prevK a jl (i + 1) j0 := by
      intro j0
      rw [hpr.1 j0]
      by_cases hj : j0 ∈ jl c
      · simp [hj, prevK]
      · simp only [hj, if_neg, prevK]
        have hnv : visB a jl i j0 = false := by
          unfold visB
          rw [hget]
          simp [hj]
        rw [kfun_of_not_vis hnv]
        simp
    have hdrop2 : a.drop (i + 1) = cs := by
      have : a.drop (i + 1) = (a.drop i).drop 1 := by
        rw [List.drop_drop]
      rw [this, hdrop]
      rfl
    have hfin := ih (i + 1) (procRow i prev (jl c) best).1
      (procRow i prev (jl c) best).2 (S ++ rowPairs jl c i) hdrop2 hprev2
      (by simpa [rowPairs] using hpr.2)
    simpa [restPairs, List.append_assoc] using hfin

theorem findCore_inv (a b : Str) (pop : Char → Bool) :
    BestInv a (b2j b pop) (restPairs (b2j b pop) a 0) (findCore a b pop) := by
  have h0 : BestInv a (b2j b pop) [] (0, 0, 0) :=
    ⟨by simp, fun _ => rfl, fun h => absurd rfl h⟩
  have := dpLoop_inv a (b2j b pop) a 0 [] (0, 0, 0) []
    (by simp) (fun j0 => by simp [lk, prevK]) h0
  simpa using this

theorem kfun_le_idx (a : Str) (jl : Char → List Nat) :
    ∀ i j, kfun a jl i j ≤ i + 1 ∧ kfun a jl i j ≤ j + 1 := by
  intro i
  induction i with
  | zero =>
    intro j
    match j with
    | 0 => simp only [kfun]; split <;> simp
    | j + 1 => simp only [kfun]; split <;> simp
  | succ i ih =>
    intro j
    match j with
    | 0 => simp only [kfun]; split <;> simp
    | j + 1 =>
      have := ih j
      simp only [kfun]
      split
      · omega
      · simp

theorem visB_lt_length {a : Str} {jl : Char → List Nat} {i j : Nat}
    (h : visB a jl i j = true) : i < a.length := by
  unfold visB at h
  by_contra hge
  rw [List.get?_eq_none.mpr (by omega)] at h
  simp at h

theorem visB_mem_restPairs {a : Str} {jl : Char → List Nat} {i j : Nat}
    (h : visB a jl i j = true) :
    ∀ (cs : Str) (i0 : Nat), a.drop i0 = cs → i0 ≤ i →
      (i, j) ∈ restPairs jl cs i0 := by
  intro cs
  induction cs with
  | nil =>
    intro i0 hdrop hle
    exfalso
    have hlen : a.length ≤ i0 := by
      have := congrArg List.length hdrop
      simp at this
      omega
    unfold visB at h
    rw [List.get?_eq_none.mpr (by omega)] at h
    simp at h
  | cons c cs ih =>
    intro i0 hdrop hle
    have hget0 : a.get? i0 = some c := by
      have h0 := List.get?_drop a i0 0
      rw [hdrop] at h0
      simpa using h0.symm
    by_cases hii : i = i0
    · subst hii
      unfold visB at h
      rw [hget0] at h
      simp at h
      unfold restPairs rowPairs
      exact List.mem_append.mpr (Or.inl (List.mem_map.mpr ⟨j, h, rfl⟩))
    · have hdrop2 : a.drop (i0 + 1) = cs := by
        have h1 : a.drop (i0 + 1) = (a.drop i0).drop 1 := by
          rw [List.drop_drop]
        rw [h1, hdrop]
        rfl
      unfold restPairs
      exact List.mem_append.mpr (Or.inr (ih (i0 + 1) hdrop2 (by omega)))

/-- Strict row-major (lexicographic) order on cells. -/
def pairLT (p q : Nat × Nat) : Prop :=
  p.1 < q.1 ∨ (p.1 = q.1 ∧ p.2 < q.2)

theorem mem_rowPairs {jl : Char → List Nat} {c : Char} {i : Nat}
    {p : Nat × Nat} (h : p ∈ rowPairs jl c i) : p.1 = i ∧ p.2 ∈ jl c := by
  unfold rowPairs at h
  obtain ⟨j, hj, hpe⟩ := List.mem_map.mp h
  rw [← hpe]
  exact ⟨rfl, hj⟩

theorem mem_restPairs_row {jl : Char → List Nat} :
    ∀ (cs : Str) (i0 : Nat) (p : Nat × Nat),
    p ∈ restPairs jl cs i0 → i0 ≤ p.1 := by
  intro cs
  induction cs with
  | nil => intro i0 p h; simp [restPairs] at h
  | cons c cs ih =>
    intro i0 p h
    unfold restPairs at h
    rcases List.mem_append.mp h with h1 | h2
    · rw [(mem_rowPairs h1).1]
    · have := ih (i0 + 1) p h2
      omega

theorem restPairs_pairwise {jl : Char → List Nat}
    (hsort : ∀ c, (jl c).Pairwise (· < ·)) :
    ∀ (cs : Str) (i0 : Nat), (restPairs jl cs i0).Pairwise pairLT := by
  intro cs
  induction cs with
  | nil => intro i0; simp [restPairs]
  | cons c cs ih =>
    intro i0
    unfold restPairs
    apply List.pairwise_append.mpr
    refine ⟨?_, ih (i0 + 1), ?_⟩
    · unfold rowPairs
      apply List.pairwise_map.mpr
      exact (hsort c).imp (fun h => Or.inr ⟨rfl, h⟩)
    · intro p hp q hq
      have hpi := (mem_rowPairs hp).1
      have hqi := mem_restPairs_row cs (i0 + 1) q hq
      exact Or.inl (by omega)

theorem b2j_sorted (b : Str) (pop : Char → Bool) (c : Char) :
    (b2j b pop c).Pairwise (· < ·) := by
  unfold b2j
  split
  · simp
  · exact List.Pairwise.sublist (List.filter_sublist _)
      (List.pairwise_lt_range _)

theorem kfun_le_findCore (a b : Str) (pop : Char → Bool) (i j : Nat) :
    kfun a (b2j b pop) i j ≤ (findCore a b pop).2.2 := by
  by_cases h : kfun a (b2j b pop) i j = 0
  · simp [h]
  · have hvis := vis_of_kfun_pos h
    have hmem := visB_mem_restPairs hvis a 0 (by simp) (by omega)
    exact (findCore_inv a b pop).1 (i, j) hmem

theorem findCore_first (a b : Str) (pop : Char → Bool)
    (hK : (findCore a b pop).2.2 ≠ 0) :
    ∃ d e, kfun a (b2j b pop) d e = (findCore a b pop).2.2 ∧
      findCore a b pop = (d + 1 - (findCore a b pop).2.2,
        e + 1 - (findCore a b pop).2.2, (findCore a b pop).2.2) ∧
      (∀ x y, kfun a (b2j b pop) x y = (findCore a b pop).2.2 →
        (d, e) = (x, y) ∨ pairLT (d, e) (x, y)) := by
  obtain ⟨S1, p, S2, hS, hk, hfirst, hform⟩ := (findCore_inv a b pop).2.2 hK
  refine ⟨p.1, p.2, hk, hform, ?_⟩
  intro x y hxy
  have hvis : visB a (b2j b pop) x y = true :=
    vis_of_kfun_pos (by rw [hxy]; exact hK)
  have hmem := visB_mem_restPairs hvis a 0 (by simp) (by omega)
  rw [hS] at hmem
  rcases List.mem_append.mp hmem with h1 | h2
  · have := hfirst (x, y) h1
    rw [hxy] at this
    omega
  · rcases List.mem_cons.mp h2 with heq | h3
    · left
      rw [heq]
    · right
      have hpw := restPairs_pairwise (fun c => b2j_sorted b pop c) a 0
      rw [hS] at hpw
      have hcons := (List.pairwise_append.mp hpw).2.1
      have := (List.pairwise_cons.mp hcons).1 (x, y) h3
      exact this

/-!
### Self-comparison: the scan finds the full diagonal

For `SequenceMatcher(None, a, a)` the best block is always on the diagonal
(runs ending at `(i, j)` are dominated by the diagonal runs ending at
`(i, i)` and `(j, j)`, and the scan keeps the first maximum in row-major
order), and the extension loops then grow it to the whole string.
-/

theorem lt_length_of_get?_some {l : Str} {n : Nat} {c : Char}
    (h : l.get? n = some c) : n < l.length := by
  by_contra hge
  rw [List.get?_eq_none.mpr (by omega)] at h
  simp at h

theorem mem_b2j {b : Str} {pop : Char → Bool} {c : Char} {j : Nat} :
    j ∈ b2j b pop c ↔ pop c = false ∧ b.get? j = some c := by
  unfold b2j
  split
  · next hpop => simp [hpop]
  · next hpop =>
    simp only [List.mem_filter, List.mem_range, decide_eq_true_eq]
    constructor
    · rintro ⟨_, h⟩
      exact ⟨Bool.not_eq_true _ ▸ hpop, h⟩
    · rintro ⟨_, h⟩
      exact ⟨lt_length_of_get?_some h, h⟩

theorem vis_self_of_vis {a : Str} {pop : Char → Bool} {i j : Nat}
    (h : visB a (b2j a pop) i j = true) :
    visB a (b2j a pop) i i = true ∧ visB a (b2j a pop) j j = true := by
  rcases hg : a.get? i with _ | c
  · unfold visB at h
    rw [hg] at h
    simp at h
  · unfold visB at h
    rw [hg] at h
    simp only [decide_eq_true_eq] at h
    obtain ⟨hpop, hgj⟩ := mem_b2j.mp h
    constructor
    · unfold visB
      rw [hg]
      exact decide_eq_true (mem_b2j.mpr ⟨hpop, hg⟩)
    · unfold visB
      rw [hgj]
      exact decide_eq_true (mem_b2j.mpr ⟨hpop, hgj⟩)

theorem one_le_kfun_of_vis {a : Str} {jl : Char → List Nat} {i j : Nat}
    (h : visB a jl i j = true) : 1 ≤ kfun a jl i j := by
  match i, j with
  | 0, j => simp [kfun, h]
  | i + 1, 0 => simp [kfun, h]
  | i + 1, j + 1 => simp [kfun, h]

theorem kfun_le_diag (a : Str) (pop : Char → Bool) :
    ∀ i j, kfun a (b2j a pop) i j ≤ kfun a (b2j a pop) i i ∧
      kfun a (b2j a pop) i j ≤ kfun a (b2j a pop) j j := by
  have H : ∀ n i j, i + j ≤ n →
      kfun a (b2j a pop) i j ≤ kfun a (b2j a pop) i i ∧
        kfun a (b2j a pop) i j ≤ kfun a (b2j a pop) j j := by
    intro n
    induction n with
    | zero =>
      intro i j hn
      have hi : i = 0 := by omega
      have hj : j = 0 := by omega
      subst hi hj
      exact ⟨Nat.le_refl _, Nat.le_refl _⟩
    | succ n ih =>
      intro i j hn
      match i, j with
      | 0, j =>
        by_cases hv : visB a (b2j a pop) 0 j = true
        · have hd := vis_self_of_vis hv
          have h1 := one_le_kfun_of_vis hd.1
          have h2 := one_le_kfun_of_vis hd.2
          have h3 := (kfun_le_idx a (b2j a pop) 0 j).1
          exact ⟨by omega, by omega⟩
        · rw [kfun_of_not_vis (Bool.not_eq_true _ ▸ hv)]
          simp
      | i + 1, 0 =>
        by_cases hv : visB a (b2j a pop) (i + 1) 0 = true
        · have hd := vis_self_of_vis hv
          have h1 := one_le_kfun_of_vis hd.1
          have h2 := one_le_kfun_of_vis hd.2
          have h3 := (kfun_le_idx a (b2j a pop) (i + 1) 0).2
          exact ⟨by omega, by omega⟩
        · rw [kfun_of_not_vis (Bool.not_eq_true _ ▸ hv)]
          simp
      | i + 1, j + 1 =>
        by_cases hv : visB a (b2j a pop) (i + 1) (j + 1) = true
        · have hd := vis_self_of_vis hv
          have hk1 : kfun a (b2j a pop) (i + 1) (j + 1)
              = kfun a (b2j a pop) i j + 1 := by simp [kfun, hv]
          have hkii : kfun a (b2j a pop) (i + 1) (i + 1)
              = kfun a (b2j a pop) i i + 1 := by simp [kfun, hd.1]
          have hkjj : kfun a (b2j a pop) (j + 1) (j + 1)
              = kfun a (b2j a pop) j j + 1 := by simp [kfun, hd.2]
          have hrec := ih i j (by omega)
          exact ⟨by omega, by omega⟩
        · rw [kfun_of_not_vis (Bool.not_eq_true _ ▸ hv)]
          simp
  exact fun i j => H (i + j) i j (Nat.le_refl _)

theorem findCore_self_diag (a : Str) (pop : Char → Bool)
    (hK : (findCore a a pop).2.2 ≠ 0) :
    ∃ d, kfun a (b2j a pop) d d = (findCore a a pop).2.2 ∧ d < a.length ∧
      findCore a a pop = (d + 1 - (findCore a a pop).2.2,
        d + 1 - (findCore a a pop).2.2, (findCore a a pop).2.2) := by
  obtain ⟨d, e, hk, hform, hfirst⟩ := findCore_first a a pop hK
  have hde : d = e := by
    rcases Nat.lt_trichotomy d e with hlt | heq | hgt
    · have h1 : kfun a (b2j a pop) d d = (findCore a a pop).2.2 := by
        have hmax := kfun_le_findCore a a pop d d
        have hdom := (kfun_le_diag a pop d e).1
        omega
      rcases hfirst d d h1 with heq2 | hlt2
      · have : e = d := by
          have := congrArg Prod.snd heq2
          simpa using this
        omega
      · simp only [pairLT] at hlt2
        omega
    · exact heq
    · have h1 : kfun a (b2j a pop) e e = (findCore a a pop).2.2 := by
        have hmax := kfun_le_findCore a a pop e e
        have hdom := (kfun_le_diag a pop d e).2
        omega
      rcases hfirst e e h1 with heq2 | hlt2
      · have : d = e := by
          have := congrArg Prod.fst heq2
          simpa using this
        exact this
      · simp only [pairLT] at hlt2
        omega
  subst hde
  have hlt := visB_lt_length (vis_of_kfun_pos (by rw [hk]; exact hK))
  exact ⟨d, hk, hlt, hform⟩

theorem extendBack_self (a : Str) : ∀ bi bs, bi + bs ≤ a.length →
    extendBack a a bi bi bs = (0, 0, bi + bs) := by
  intro bi
  induction bi with
  | zero => intro bs _; simp [extendBack]
  | succ bi ih =>
    intro bs hle
    simp only [extendBack]
    rcases hg : a.get? bi with _ | x
    · exfalso
      have := List.get?_eq_none.mp hg
      omega
    · show (if x = x then extendBack a a bi bi (bs + 1)
          else (bi + 1, bi + 1, bs)) = (0, 0, bi + 1 + bs)
      rw [if_pos rfl, ih (bs + 1) (by omega)]
      have : bi + (bs + 1) = bi + 1 + bs := by omega
      rw [this]

theorem extendFwd_self (a : Str) : ∀ bs, bs ≤ a.length →
    extendFwd a a 0 0 bs = a.length := by
  have H : ∀ n bs, a.length - bs ≤ n → bs ≤ a.length →
      extendFwd a a 0 0 bs = a.length := by
    intro n
    induction n with
    | zero =>
      intro bs h0 h1
      rw [extendFwd_eq]
      split
      · next h => exfalso; omega
      · omega
    | succ n ih =>
      intro bs h0 h1
      rw [extendFwd_eq]
      split
      · next h => exact ih (bs + 1) (by omega) (by omega)
      · next h =>
        simp only [Nat.zero_add] at h
        by_cases hb : bs < a.length
        · exact absurd ⟨hb, hb, by trivial⟩ h
        · omega
  exact fun bs h => H a.length bs (by omega) h

theorem findLM_self (a : Str) (pop : Char → Bool) :
    findLM a a pop = (0, 0, a.length) := by
  unfold findLM
  by_cases hK : (findCore a a pop).2.2 = 0
  · have h0 : findCore a a pop = (0, 0, 0) := (findCore_inv a a pop).2.1 hK
    rw [h0]
    simp only
    rw [extendBack_self a 0 0 (by omega)]
    simp only
    rw [extendFwd_self a 0 (by omega)]
  · obtain ⟨d, hk, hdlt, hform⟩ := findCore_self_diag a pop hK
    have hK1 : 1 ≤ (findCore a a pop).2.2 := Nat.pos_of_ne_zero hK
    have hKd : (findCore a a pop).2.2 ≤ d + 1 := by
      have := (kfun_le_idx a (b2j a pop) d d).1
      omega
    rw [hform]
    simp only
    rw [extendBack_self a (d + 1 - (findCore a a pop).2.2)
      (findCore a a pop).2.2 (by omega)]
    simp only
    have heq : d + 1 - (findCore a a pop).2.2 + (findCore a a pop).2.2
        = d + 1 := by omega
    rw [heq]
    rw [extendFwd_self a (d + 1) (by omega)]

theorem matchesTotalF_self (pop : Char → Bool) :
    ∀ (f : Nat) (a : Str), a.length ≤ f → matchesTotalF pop f a a = a.length := by
  intro f
  induction f with
  | zero =>
    intro a h
    have ha : a = [] := List.length_eq_zero.mp (by omega)
    subst ha
    rfl
  | succ f ih =>
    intro a h
    simp only [matchesTotalF]
    rw [findLM_self a pop]
    by_cases hn : a.length = 0
    · simp [hn]
    · rw [if_neg hn]
      simp only [List.take_zero, Nat.zero_add, List.drop_length]
      rw [ih [] (by simp)]
      simp

theorem matchesTotal_self (a : Str) (pop : Char → Bool) :
    matchesTotal a a pop = a.length :=
  matchesTotalF_self pop (a.length + a.length) a (by omega)

/-- `difflib._calculate_ratio(matches, length)`. -/
def ratioCalc (m t : Nat) : ℚ :=
  if t = 0 then 1 else 2 * (m : ℚ) / (t : ℚ)

/-- `SequenceMatcher(None, a, b).ratio()`. -/
def smRatio (a b : Str) : ℚ :=
  ratioCalc (matchesTotal a b (popularB b)) (a.length + b.length)

/-- `fuzzy_score(query, target)` from `cmdvault/utils.py`. -/
def fuzzy_score (query target : Str) : ℚ :=
  if strip query = [] then 1
  else smRatio (lower query) (lower target)

/-!
### Reference scorer, modelled from the spec's words

The spec describes the scorer as "the classic Ratcliff/Obershelp-style
matching blocks technique: recursively find the longest common contiguous
substring between the two strings, recurse on the remainders to the left
and right of the matched block, and sum matched-block lengths".  The
definitions below follow those words directly: enumerate every pair of
start positions, take the (leftmost) longest common contiguous substring,
and recurse on both remainders.
-/

/-- Length of the longest common prefix of two strings. -/
def cpl : Str → Str → Nat
  | c :: cs, d :: ds => if c = d then cpl cs ds + 1 else 0
  | _, _ => 0

/-- Modelled from the spec: every pair of start positions `(i, j)` together
with the length of the common contiguous substring starting there. -/
def lcsCandidates (a b : Str) : List (Nat × Nat × Nat) :=
  (List.range a.length).flatMap (fun i =>
    (List.range b.length).map (fun j => (i, j, cpl (a.drop i) (b.drop j))))

/-- Modelled from the spec: the leftmost (first by start in `a`, then by
start in `b`) longest common contiguous substring of `a` and `b`, as
`(start in a, start in b, length)`; `(0, 0, 0)` if there is none. -/
def refFind (a b : Str) : Nat × Nat × Nat :=
  (lcsCandidates a b).foldl
    (fun best p => if best.2.2 < p.2.2 then p else best) (0, 0, 0)

theorem cpl_le : ∀ s t : Str, cpl s t ≤ s.length ∧ cpl s t ≤ t.length := by
  intro s
  induction s with
  | nil => intro t; simp [cpl]
  | cons c cs ih =>
    intro t
    match t with
    | [] => simp [cpl]
    | d :: ds =>
      simp only [cpl]
      split
      · have := ih ds
        constructor <;> simp <;> omega
      · simp

theorem foldl_best_mem (l : List (Nat × Nat × Nat)) :
    ∀ init : Nat × Nat × Nat,
    l.foldl (fun best p => if best.2.2 < p.2.2 then p else best) init = init ∨
      l.foldl (fun best p => if best.2.2 < p.2.2 then p else best) init ∈ l := by
  induction l with
  | nil => intro init; simp
  | cons x xs ih =>
    intro init
    simp only [List.foldl_cons]
    rcases ih (if init.2.2 < x.2.2 then x else init) with h | h
    · rw [h]
      split
      · exact Or.inr (by simp)
      · exact Or.inl rfl
    · exact Or.inr (by simp [h])

theorem refFind_bound (a b : Str) :
    (refFind a b).1 + (refFind a b).2.2 ≤ a.length ∧
      (refFind a b).2.1 + (refFind a b).2.2 ≤ b.length := by
  rcases foldl_best_mem (lcsCandidates a b) (0, 0, 0) with h | h
  · unfold refFind
    rw [h]
    simp
  · have hr : refFind a b = List.foldl
        (fun best p => if best.2.2 < p.2.2 then p else best) (0, 0, 0)
        (lcsCandidates a b) := rfl
    rw [hr]
    obtain ⟨i, hi, hmem⟩ := List.mem_flatMap.mp h
    obtain ⟨j, hj, hp⟩ := List.mem_map.mp hmem
    have hia : i < a.length := List.mem_range.mp hi
    have hjb : j < b.length := List.mem_range.mp hj
    have hc := cpl_le (a.drop i) (b.drop j)
    rw [← hp]
    simp only
    constructor
    · have : cpl (a.drop i) (b.drop j) ≤ a.length - i := by
        have := hc.1
        simpa using this
      omega
    · have : cpl (a.drop i) (b.drop j) ≤ b.length - j := by
        have := hc.2
        simpa using this
      omega

/-- Modelled from the spec, fuelled like `matchesTotalF`: every recursive
call strictly decreases `a.length + b.length` (by `refFind_bound`). -/
def refMatchesF : Nat → Str → Str → Nat
  | 0, _, _ => 0
  | f + 1, a, b =>
    if (refFind a b).2.2 = 0 then 0
    else
      refMatchesF f (a.take (refFind a b).1) (b.take (refFind a b).2.1)
        + (refFind a b).2.2
        + refMatchesF f (a.drop ((refFind a b).1 + (refFind a b).2.2))
            (b.drop ((refFind a b).2.1 + (refFind a b).2.2))

/-- Modelled from the spec: total matched length of the Ratcliff/Obershelp
recursion — longest block, then recurse left and right. -/
def refMatches (a b : Str) : Nat :=
  refMatchesF (a.length + b.length) a b

/-- Modelled from the spec: the reference similarity ratio
`2*M / (len(a) + len(b))`. -/
def refRatio (a b : Str) : ℚ :=
  ratioCalc (refMatches a b) (a.length + b.length)

/-!
### Equivalence with the reference scorer in the absence of autojunk

When the popularity predicate is constantly false (in particular whenever
the target is shorter than 200 characters), `find_longest_match` returns
exactly the leftmost longest common contiguous substring, and the matching
blocks recursion therefore computes the reference Ratcliff/Obershelp sum.
-/

theorem visB_junkFree {a b : Str} {pop : Char → Bool}
    (hp : ∀ c, pop c = false) {i j : Nat} :
    visB a (b2j b pop) i j = true ↔
      ∃ c, a.get? i = some c ∧ b.get? j = some c := by
  unfold visB
  rcases hg : a.get? i with _ | c
  · simp
  · simp only [decide_eq_true_eq]
    constructor
    · intro h
      exact ⟨c, rfl, (mem_b2j.mp h).2⟩
    · rintro ⟨c2, hc2, hbj⟩
      have : c2 = c := by
        cases hc2
        rfl
      subst this
      exact mem_b2j.mpr ⟨hp c2, hbj⟩

/-- A common contiguous block of length `m` starting at `(x, y)`. -/
def MB (a b : Str) (x y m : Nat) : Prop :=
  ∀ t < m, ∃ c, a.get? (x + t) = some c ∧ b.get? (y + t) = some c

theorem cpl_succ_iff (s t : Str) (k : Nat) :
    k + 1 ≤ cpl s t ↔
      ∃ c s2 t2, s = c :: s2 ∧ t = c :: t2 ∧ k ≤ cpl s2 t2 := by
  match s, t with
  | [], t =>
    simp [cpl]
  | c :: s2, [] =>
    simp [cpl]
  | c :: s2, d :: t2 =>
    simp only [cpl]
    split
    · next hcd =>
      subst hcd
      constructor
      · intro h
        exact ⟨c, s2, t2, rfl, rfl, by omega⟩
      · rintro ⟨c2, s3, t3, h1, h2, h3⟩
        cases h1
        cases h2
        omega
    · next hcd =>
      constructor
      · intro h
        omega
      · rintro ⟨c2, s3, t3, h1, h2, h3⟩
        cases h1
        cases h2
        exact absurd rfl hcd

theorem drop_cons_of_get? {a : Str} {i : Nat} {c : Char}
    (h : a.get? i = some c) : a.drop i = c :: a.drop (i + 1) := by
  induction a generalizing i with
  | nil => simp [List.get?] at h
  | cons d ds ih =>
    match i with
    | 0 =>
      simp only [List.get?] at h
      cases h
      rfl
    | i + 1 =>
      simp only [List.get?] at h
      simpa using ih h

theorem cpl_ge_iff (a b : Str) :
    ∀ k i j, k ≤ cpl (a.drop i) (b.drop j) ↔ MB a b i j k := by
  intro k
  induction k with
  | zero =>
    intro i j
    simp [MB]
  | succ k ih =>
    intro i j
    rw [cpl_succ_iff]
    constructor
    · rintro ⟨c, s2, t2, h1, h2, h3⟩
      have hga : a.get? i = some c := by
        have := List.get?_drop a i 0
        rw [h1] at this
        simpa using this.symm
      have hgb : b.get? j = some c := by
        have := List.get?_drop b j 0
        rw [h2] at this
        simpa using this.symm
      have hs2 : s2 = a.drop (i + 1) := by
        have := drop_cons_of_get? hga
        rw [h1] at this
        exact (List.cons.injEq _ _ _ _ ▸ this).2
      have ht2 : t2 = b.drop (j + 1) := by
        have := drop_cons_of_get? hgb
        rw [h2] at this
        exact (List.cons.injEq _ _ _ _ ▸ this).2
      subst hs2 ht2
      have hmb := (ih (i + 1) (j + 1)).mp h3
      intro t ht
      match t with
      | 0 => exact ⟨c, by simpa using hga, by simpa using hgb⟩
      | t + 1 =>
        obtain ⟨c2, hc1, hc2⟩ := hmb t (by omega)
        refine ⟨c2, ?_, ?_⟩
        · have e : i + (t + 1) = i + 1 + t := by omega
          rw [e]
          exact hc1
        · have e : j + (t + 1) = j + 1 + t := by omega
          rw [e]
          exact hc2
    · intro hmb
      obtain ⟨c, hc1, hc2⟩ := hmb 0 (by omega)
      simp only [Nat.add_zero] at hc1 hc2
      refine ⟨c, a.drop (i + 1), b.drop (j + 1),
        drop_cons_of_get? hc1, drop_cons_of_get? hc2, ?_⟩
      apply (ih (i + 1) (j + 1)).mpr
      intro t ht
      obtain ⟨c2, hd1, hd2⟩ := hmb (t + 1) (by omega)
      refine ⟨c2, ?_, ?_⟩
      · have e : i + 1 + t = i + (t + 1) := by omega
        rw [e]
        exact hd1
      · have e : j + 1 + t = j + (t + 1) := by omega
        rw [e]
        exact hd2

theorem kfun_ge_iff (a b : Str) {pop : Char → Bool}
    (hp : ∀ c, pop c = false) :
    ∀ k i j, k + 1 ≤ kfun a (b2j b pop) i j ↔
      (k ≤ i ∧ k ≤ j ∧ MB a b (i - k) (j - k) (k + 1)) := by
  intro k
  induction k with
  | zero =>
    intro i j
    constructor
    · intro h
      have hne : kfun a (b2j b pop) i j ≠ 0 := by omega
      have hv := vis_of_kfun_pos hne
      obtain ⟨c, h1, h2⟩ := (visB_junkFree hp).mp hv
      refine ⟨by omega, by omega, ?_⟩
      intro t ht
      have ht0 : t = 0 := by omega
      subst ht0
      exact ⟨c, by simpa using h1, by simpa using h2⟩
    · rintro ⟨_, _, hmb⟩
      obtain ⟨c, h1, h2⟩ := hmb 0 (by omega)
      simp only [Nat.sub_zero, Nat.add_zero] at h1 h2
      exact one_le_kfun_of_vis ((visB_junkFree hp).mpr ⟨c, h1, h2⟩)
  | succ k ih =>
    intro i j
    match i, j with
    | 0, j =>
      have := (kfun_le_idx a (b2j b pop) 0 j).1
      constructor
      · intro h
        omega
      · rintro ⟨h1, _, _⟩
        omega
    | i + 1, 0 =>
      have := (kfun_le_idx a (b2j b pop) (i + 1) 0).2
      constructor
      · intro h
        omega
      · rintro ⟨_, h2, _⟩
        omega
    | i + 1, j + 1 =>
      rw [Nat.succ_sub_succ, Nat.succ_sub_succ]
      by_cases hv : visB a (b2j b pop) (i + 1) (j + 1) = true
      · have hk : kfun a (b2j b pop) (i + 1) (j + 1)
            = kfun a (b2j b pop) i j + 1 := by simp [kfun, hv]
        rw [hk]
        constructor
        · intro h
          obtain ⟨hki, hkj, hmb⟩ := (ih i j).mp (by omega)
          refine ⟨by omega, by omega, ?_⟩
          intro t ht
          by_cases htk : t < k + 1
          · exact hmb t htk
          · have hteq : t = k + 1 := by omega
            subst hteq
            obtain ⟨c, h1, h2⟩ := (visB_junkFree hp).mp hv
            have e1 : i - k + (k + 1) = i + 1 := by omega
            have e2 : j - k + (k + 1) = j + 1 := by omega
            rw [e1, e2]
            exact ⟨c, h1, h2⟩
        · rintro ⟨h1, h2, hmb⟩
          have : k + 1 ≤ kfun a (b2j b pop) i j :=
            (ih i j).mpr ⟨by omega, by omega, fun t ht => hmb t (by omega)⟩
          omega
      · have hk : kfun a (b2j b pop) (i + 1) (j + 1) = 0 :=
          kfun_of_not_vis (Bool.not_eq_true _ ▸ hv)
        rw [hk]
        constructor
        · intro h
          omega
        · rintro ⟨h1, h2, hmb⟩
          exfalso
          obtain ⟨c, hc1, hc2⟩ := hmb (k + 1) (by omega)
          have e1 : i - k + (k + 1) = i + 1 := by omega
          have e2 : j - k + (k + 1) = j + 1 := by omega
          rw [e1] at hc1
          rw [e2] at hc2
          exact hv ((visB_junkFree hp).mpr ⟨c, hc1, hc2⟩)

theorem foldlBest_spec :
    ∀ (l : List (Nat × Nat × Nat)) (init : Nat × Nat × Nat),
    (List.foldl (fun best p => if best.2.2 < p.2.2 then p else best) init l
        = init ∧ ∀ p ∈ l, p.2.2 ≤ init.2.2) ∨
    (∃ l1 p l2, l = l1 ++ p :: l2 ∧
      List.foldl (fun best p => if best.2.2 < p.2.2 then p else best) init l
        = p ∧
      init.2.2 < p.2.2 ∧ (∀ q ∈ l1, q.2.2 < p.2.2) ∧ ∀ q ∈ l2, q.2.2 ≤ p.2.2) := by
  intro l
  induction l with
  | nil => intro init; left; exact ⟨rfl, by simp⟩
  | cons x xs ih =>
    intro init
    simp only [List.foldl_cons]
    by_cases hx : init.2.2 < x.2.2
    · rw [if_pos hx]
      rcases ih x with ⟨heq, hall⟩ | ⟨l1, p, l2, hsplit, heq, hlt, hbef, haf⟩
      · right
        exact ⟨[], x, xs, by simp, heq, hx, by simp, hall⟩
      · right
        refine ⟨x :: l1, p, l2, by simp [hsplit], heq, by omega, ?_, haf⟩
        intro q hq
        rcases List.mem_cons.mp hq with rfl | h2
        · omega
        · exact hbef q h2
    · rw [if_neg hx]
      rcases ih init with ⟨heq, hall⟩ | ⟨l1, p, l2, hsplit, heq, hlt, hbef, haf⟩
      · left
        refine ⟨heq, ?_⟩
        intro p hp
        rcases List.mem_cons.mp hp with rfl | h2
        · omega
        · exact hall p h2
      · right
        refine ⟨x :: l1, p, l2, by simp [hsplit], heq, hlt, ?_, haf⟩
        intro q hq
        rcases List.mem_cons.mp hq with rfl | h2
        · omega
        · exact hbef q h2

theorem mem_lcsCandidates {a b : Str} {p : Nat × Nat × Nat} :
    p ∈ lcsCandidates a b ↔
      p.1 < a.length ∧ p.2.1 < b.length ∧
        p.2.2 = cpl (a.drop p.1) (b.drop p.2.1) := by
  unfold lcsCandidates
  constructor
  · intro h
    obtain ⟨i, hi, hmem⟩ := List.mem_flatMap.mp h
    obtain ⟨j, hj, hpe⟩ := List.mem_map.mp hmem
    rw [← hpe]
    exact ⟨List.mem_range.mp hi, List.mem_range.mp hj, rfl⟩
  · rintro ⟨h1, h2, h3⟩
    apply List.mem_flatMap.mpr
    refine ⟨p.1, List.mem_range.mpr h1, ?_⟩
    apply List.mem_map.mpr
    refine ⟨p.2.1, List.mem_range.mpr h2, ?_⟩
    rw [← h3]

theorem lcsCandidates_pairwise (a b : Str) :
    (lcsCandidates a b).Pairwise
      (fun p q => pairLT (p.1, p.2.1) (q.1, q.2.1)) := by
  unfold lcsCandidates
  apply List.pairwise_flatMap.mpr
  constructor
  · intro i _
    apply List.pairwise_map.mpr
    exact (List.pairwise_lt_range _).imp (fun h => Or.inr ⟨rfl, h⟩)
  · apply (List.pairwise_lt_range _).imp
    intro i1 i2 h x hx y hy
    obtain ⟨j1, _, he1⟩ := List.mem_map.mp hx
    obtain ⟨j2, _, he2⟩ := List.mem_map.mp hy
    rw [← he1, ← he2]
    exact Or.inl h

theorem MB_cons {a b : Str} {x y m : Nat} {c : Char}
    (h2 : a.get? x = some c) (h3 : b.get? y = some c)
    (h1 : MB a b (x + 1) (y + 1) m) : MB a b x y (m + 1) := by
  intro t ht
  match t with
  | 0 => exact ⟨c, by simpa using h2, by simpa using h3⟩
  | t + 1 =>
    obtain ⟨c2, hc1, hc2⟩ := h1 t (by omega)
    refine ⟨c2, ?_, ?_⟩
    · have e : x + (t + 1) = x + 1 + t := by omega
      rw [e]
      exact hc1
    · have e : y + (t + 1) = y + 1 + t := by omega
      rw [e]
      exact hc2

theorem extendBack_stop (a b : Str) (bi bj bs : Nat)
    (h : bi = 0 ∨ bj = 0 ∨
      ∀ x y, a.get? (bi - 1) = some x → b.get? (bj - 1) = some y → x ≠ y) :
    extendBack a b bi bj bs = (bi, bj, bs) := by
  match bi, bj with
  | 0, bj => rfl
  | bi + 1, 0 => rfl
  | bi + 1, bj + 1 =>
    rcases h with h0 | h0 | hne
    · simp at h0
    · simp at h0
    · simp only [extendBack]
      rcases hga : a.get? bi with _ | x
      · rfl
      · rcases hgb : b.get? bj with _ | y
        · rfl
        · have hxy : x ≠ y := hne x y (by simpa using hga) (by simpa using hgb)
          show (if x = y then extendBack a b bi bj (bs + 1)
            else (bi + 1, bj + 1, bs)) = (bi + 1, bj + 1, bs)
          rw [if_neg hxy]

theorem extendBack_noop {a b : Str} {pop : Char → Bool}
    (hp : ∀ c, pop c = false) {d e K : Nat}
    (hK1 : 1 ≤ K) (hkd : K ≤ d + 1) (hke : K ≤ e + 1)
    (hk : kfun a (b2j b pop) d e = K)
    (hmax : ∀ x y, kfun a (b2j b pop) x y ≤ K) :
    extendBack a b (d + 1 - K) (e + 1 - K) K = (d + 1 - K, e + 1 - K, K) := by
  apply extendBack_stop
  by_cases h1 : d + 1 - K = 0
  · exact Or.inl h1
  by_cases h2 : e + 1 - K = 0
  · exact Or.inr (Or.inl h2)
  refine Or.inr (Or.inr ?_)
  intro x y hga hgb hxy
  subst hxy
  have hKd : K ≤ d := by omega
  have hKe : K ≤ e := by omega
  have e1 : d + 1 - K - 1 = d - K := by omega
  have e2 : e + 1 - K - 1 = e - K := by omega
  rw [e1] at hga
  rw [e2] at hgb
  have hmb : MB a b (d - K) (e - K) (K + 1) := by
    apply MB_cons hga hgb
    obtain ⟨_, _, hmb0⟩ := (kfun_ge_iff a b hp (K - 1) d e).mp
      (by omega)
    have f1 : d - (K - 1) = d - K + 1 := by omega
    have f2 : e - (K - 1) = e - K + 1 := by omega
    have f3 : K - 1 + 1 = K := by omega
    rw [f1, f2, f3] at hmb0
    exact hmb0
  have hbig : K + 1 ≤ kfun a (b2j b pop) d e :=
    (kfun_ge_iff a b hp K d e).mpr ⟨hKd, hKe, hmb⟩
  omega

theorem extendFwd_noop {a b : Str} {pop : Char → Bool}
    (hp : ∀ c, pop c = false) {d e K : Nat}
    (hK1 : 1 ≤ K) (hkd : K ≤ d + 1) (hke : K ≤ e + 1)
    (hk : kfun a (b2j b pop) d e = K)
    (hmax : ∀ x y, kfun a (b2j b pop) x y ≤ K) :
    extendFwd a b (d + 1 - K) (e + 1 - K) K = K := by
  have hng : ¬(d + 1 - K + K < a.length ∧ e + 1 - K + K < b.length ∧
      a.get? (d + 1 - K + K) = b.get? (e + 1 - K + K)) := by
    rintro ⟨hh1, hh2, hh3⟩
    have f1 : d + 1 - K + K = d + 1 := by omega
    have f2 : e + 1 - K + K = e + 1 := by omega
    rw [f1] at hh1 hh3
    rw [f2] at hh2 hh3
    obtain ⟨c, hc⟩ : ∃ c, a.get? (d + 1) = some c := ⟨_, List.get?_eq_get hh1⟩
    have hcb : b.get? (e + 1) = some c := by rw [← hh3]; exact hc
    have hv : visB a (b2j b pop) (d + 1) (e + 1) = true :=
      (visB_junkFree hp).mpr ⟨c, hc, hcb⟩
    have hstep : kfun a (b2j b pop) (d + 1) (e + 1)
        = kfun a (b2j b pop) d e + 1 := by simp [kfun, hv]
    have := hmax (d + 1) (e + 1)
    omega
  rw [extendFwd_eq, if_neg hng]

theorem findLM_junkFree (a b : Str) (pop : Char → Bool)
    (hp : ∀ c, pop c = false) : findLM a b pop = refFind a b := by
  unfold findLM
  by_cases hK : (findCore a b pop).2.2 = 0
  · have h0 : findCore a b pop = (0, 0, 0) := (findCore_inv a b pop).2.1 hK
    rw [h0]
    simp only
    rw [extendBack_stop a b 0 0 0 (Or.inl rfl)]
    simp only
    have hf : extendFwd a b 0 0 0 = 0 := by
      have hng : ¬(0 + 0 < a.length ∧ 0 + 0 < b.length ∧
          a.get? (0 + 0) = b.get? (0 + 0)) := by
        rintro ⟨hh1, hh2, hh3⟩
        simp only [Nat.add_zero] at hh1 hh2 hh3
        obtain ⟨c, hc⟩ : ∃ c, a.get? 0 = some c := ⟨_, List.get?_eq_get hh1⟩
        have hcb : b.get? 0 = some c := by rw [← hh3]; exact hc
        have hv := (visB_junkFree hp).mpr ⟨c, hc, hcb⟩
        have hone := one_le_kfun_of_vis hv
        have := kfun_le_findCore a b pop 0 0
        omega
      rw [extendFwd_eq, if_neg hng]
    rw [hf]
    have hzero : ∀ p ∈ lcsCandidates a b, p.2.2 = 0 := by
      intro p hpc
      obtain ⟨hp1, hp2, hp3⟩ := mem_lcsCandidates.mp hpc
      by_contra hnz
      have hge : 1 ≤ cpl (a.drop p.1) (b.drop p.2.1) := by omega
      have hmb := (cpl_ge_iff a b 1 p.1 p.2.1).mp hge
      obtain ⟨c, hc1, hc2⟩ := hmb 0 (by omega)
      simp only [Nat.add_zero] at hc1 hc2
      have hv := (visB_junkFree hp).mpr ⟨c, hc1, hc2⟩
      have hone := one_le_kfun_of_vis hv
      have := kfun_le_findCore a b pop p.1 p.2.1
      omega
    rcases foldlBest_spec (lcsCandidates a b) (0, 0, 0) with
      ⟨heq, _⟩ | ⟨l1, p, l2, hsplit, heq, hlt, _, _⟩
    · unfold refFind
      rw [heq]
    · exfalso
      have := hzero p (by rw [hsplit]; simp)
      simp at hlt
      omega
  · obtain ⟨d, e, hk, hform, hfirst⟩ := findCore_first a b pop hK
    have hK1 : 1 ≤ (findCore a b pop).2.2 := Nat.pos_of_ne_zero hK
    have hkd : (findCore a b pop).2.2 ≤ d + 1 := by
      have := (kfun_le_idx a (b2j b pop) d e).1
      omega
    have hke : (findCore a b pop).2.2 ≤ e + 1 := by
      have := (kfun_le_idx a (b2j b pop) d e).2
      omega
    have hmax : ∀ x y, kfun a (b2j b pop) x y ≤ (findCore a b pop).2.2 :=
      kfun_le_findCore a b pop
    set K := (findCore a b pop).2.2 with hKdef
    rw [hform]
    simp only
    rw [extendBack_noop hp hK1 hkd hke hk hmax]
    simp only
    rw [extendFwd_noop hp hK1 hkd hke hk hmax]
    have hvis := vis_of_kfun_pos (show kfun a (b2j b pop) d e ≠ 0 by omega)
    have hd : d < a.length := visB_lt_length hvis
    have he : e < b.length := by
      obtain ⟨c, hc1, hc2⟩ := (visB_junkFree hp).mp hvis
      exact lt_length_of_get?_some hc2
    have hMB : MB a b (d + 1 - K) (e + 1 - K) K := by
      obtain ⟨_, _, hmb⟩ := (kfun_ge_iff a b hp (K - 1) d e).mp
        (by omega)
      have f1 : d - (K - 1) = d + 1 - K := by omega
      have f2 : e - (K - 1) = e + 1 - K := by omega
      have f3 : K - 1 + 1 = K := by omega
      rw [f1, f2, f3] at hmb
      exact hmb
    have hcpl_le_all : ∀ x y, cpl (a.drop x) (b.drop y) ≤ K := by
      intro x y
      by_contra hgt
      push_neg at hgt
      have hmb := (cpl_ge_iff a b (K + 1) x y).mp (by omega)
      have hbig : K + 1 ≤ kfun a (b2j b pop) (x + K) (y + K) := by
        apply (kfun_ge_iff a b hp K (x + K) (y + K)).mpr
        refine ⟨by omega, by omega, ?_⟩
        have f1 : x + K - K = x := by omega
        have f2 : y + K - K = y := by omega
        rw [f1, f2]
        exact hmb
      have := hmax (x + K) (y + K)
      omega
    have hcpl_eq : cpl (a.drop (d + 1 - K)) (b.drop (e + 1 - K)) = K :=
      Nat.le_antisymm (hcpl_le_all _ _) ((cpl_ge_iff a b K _ _).mpr hMB)
    have hcand : ((d + 1 - K, e + 1 - K, K) : Nat × Nat × Nat)
        ∈ lcsCandidates a b := by
      apply mem_lcsCandidates.mpr
      exact ⟨show d + 1 - K < a.length by omega,
        show e + 1 - K < b.length by omega, hcpl_eq.symm⟩
    rcases foldlBest_spec (lcsCandidates a b) (0, 0, 0) with
      ⟨heq, hall⟩ | ⟨l1, p, l2, hsplit, heq, hlt, hbef, haf⟩
    · exfalso
      have := hall _ hcand
      simp at this
      omega
    · unfold refFind
      rw [heq]
      have hpmem : p ∈ lcsCandidates a b := by
        rw [hsplit]
        simp
      have hpcand := mem_lcsCandidates.mp hpmem
      have hple : p.2.2 ≤ K := by
        rw [hpcand.2.2]
        exact hcpl_le_all _ _
      have hpK : p.2.2 = K := by
        rw [hsplit] at hcand
        rcases List.mem_append.mp hcand with hin1 | hin2
        · have := hbef _ hin1
          simp at this
          omega
        · rcases List.mem_cons.mp hin2 with heq2 | hin3
          · rw [← heq2]
          · have := haf _ hin3
            simp at this
            omega
      have hpcpl : K ≤ cpl (a.drop p.1) (b.drop p.2.1) := by
        rw [← hpcand.2.2, hpK]
      have hpmb : MB a b p.1 p.2.1 K := (cpl_ge_iff a b K _ _).mp hpcpl
      have hkend : kfun a (b2j b pop) (p.1 + K - 1) (p.2.1 + K - 1) = K := by
        have hmb2 : MB a b (p.1 + K - 1 - (K - 1)) (p.2.1 + K - 1 - (K - 1))
            (K - 1 + 1) := by
          have f1 : p.1 + K - 1 - (K - 1) = p.1 := by omega
          have f2 : p.2.1 + K - 1 - (K - 1) = p.2.1 := by omega
          have f3 : K - 1 + 1 = K := by omega
          rw [f1, f2, f3]
          exact hpmb
        have hge := (kfun_ge_iff a b hp (K - 1)
          (p.1 + K - 1) (p.2.1 + K - 1)).mpr ⟨by omega, by omega, hmb2⟩
        have := hmax (p.1 + K - 1) (p.2.1 + K - 1)
        omega
      rcases hfirst (p.1 + K - 1) (p.2.1 + K - 1) hkend with heq2 | hlt2
      · have hc1 : d = p.1 + K - 1 := by
          have := congrArg Prod.fst heq2
          simpa using this
        have hc2 : e = p.2.1 + K - 1 := by
          have := congrArg Prod.snd heq2
          simpa using this
        show ((d + 1 - K, e + 1 - K, K) : Nat × Nat × Nat)
          = (p.1, p.2.1, p.2.2)
        simp only [Prod.mk.injEq]
        exact ⟨by omega, by omega, hpK.symm⟩
      · exfalso
        rw [hsplit] at hcand
        rcases List.mem_append.mp hcand with hin1 | hin2
        · have := hbef _ hin1
          simp at this
          omega
        · rcases List.mem_cons.mp hin2 with heq3 | hin3
          · have hc1 : p.1 = d + 1 - K := by
              have := congrArg (fun z => z.1) heq3.symm
              simpa using this
            have hc2 : p.2.1 = e + 1 - K := by
              have := congrArg (fun z => z.2.1) heq3.symm
              simpa using this
            simp only [pairLT] at hlt2
            omega
          · have hpw := lcsCandidates_pairwise a b
            rw [hsplit] at hpw
            have hcons := (List.pairwise_append.mp hpw).2.1
            have hrel := (List.pairwise_cons.mp hcons).1 _ hin3
            simp only [pairLT] at hrel hlt2
            omega

theorem matchesTotalF_junkFree (pop : Char → Bool) (hp : ∀ c, pop c = false) :
    ∀ (f : Nat) (a b : Str), matchesTotalF pop f a b = refMatchesF f a b := by
  intro f
  induction f with
  | zero => intro a b; rfl
  | succ f ih =>
    intro a b
    simp only [matchesTotalF, refMatchesF]
    rw [findLM_junkFree a b pop hp]
    by_cases hk : (refFind a b).2.2 = 0
    · rw [if_pos hk, if_pos hk]
    · rw [if_neg hk, if_neg hk, ih, ih]

theorem matchesTotal_junkFree (a b : Str) (pop : Char → Bool)
    (hp : ∀ c, pop c = false) : matchesTotal a b pop = refMatches a b :=
  matchesTotalF_junkFree pop hp (a.length + b.length) a b

/-!
## The Ranker: `filter_commands_fuzzy`

Python source (`cmdvault/utils.py`):
```
def filter_commands_fuzzy(commands, query, *, search_title=True, search_command=True):
    if not query.strip():
        return list(commands)
    q = query.strip().lower()
    scored = []
    for cmd in commands:
        title = (cmd.get("title") or "").lower()
        command = (cmd.get("command") or "").lower()
        if search_title and fuzzy_match(q, title):
            score = fuzzy_score(q, title)
            scored.append((score, cmd))
            continue
        if search_command and fuzzy_match(q, command):
            score = fuzzy_score(q, command)
            scored.append((score, cmd))
    scored.sort(key=lambda x: -x[0])
    return [cmd for _, cmd in scored]
```

A record is a Python dict; the ranker reads the `title` and `command` keys
(`cmd.get(...) or ""` turns both a missing key and a `None` value into the
empty string) and carries everything else around untouched.  We model a
record as its two optional searched fields plus an opaque remainder.
Python's `list.sort` is a stable sort; sorting by the key `-score` is
therefore the stable sort by non-increasing score, which we model by a
stable insertion sort (`insertDesc`/`sortDesc`): a new element goes after
all strictly greater scores and before earlier-inserted equal scores,
i.e. ties keep their original relative order.
-/

/-- A record: the two searched fields (absent or null modelled by `none`)
and the rest of the dict, opaque to the ranker. -/
structure Record where
  title? : Option Str
  command? : Option Str
  rest : List (Str × Str)
deriving DecidableEq

/-- Python `(value or "")`: a missing/None field is the empty string. -/
def orEmpty (o : Option Str) : Str := o.getD []

/-- The body of the ranker's loop for one record: score against the first
enabled field accepted by the matcher (title first, then command), or drop
the record. -/
def scoreEntry (q : Str) (st sc : Bool) (r : Record) : Option (ℚ × Record) :=
  if st && fuzzy_match q (lower (orEmpty r.title?)) then
    some (fuzzy_score q (lower (orEmpty r.title?)), r)
  else if sc && fuzzy_match q (lower (orEmpty r.command?)) then
    some (fuzzy_score q (lower (orEmpty r.command?)), r)
  else none

/-- Stable insertion into a list sorted by non-increasing score: walk past
strictly greater scores, stop at the first score `≤` ours (so earlier
elements win ties). -/
def insertDesc (x : ℚ × Record) : List (ℚ × Record) → List (ℚ × Record)
  | [] => [x]
  | y :: ys => if x.1 < y.1 then y :: insertDesc x ys else x :: y :: ys

/-- Stable sort by non-increasing score, modelling Python's stable
`scored.sort(key=lambda x: -x[0])`. -/
def sortDesc : List (ℚ × Record) → List (ℚ × Record)
  | [] => []
  | x :: xs => insertDesc x (sortDesc xs)

/-- The `scored` list, in input order. -/
def scoredList (commands : List Record) (q : Str) (st sc : Bool) :
    List (ℚ × Record) :=
  commands.filterMap (scoreEntry q st sc)

/-- The `scored` list after the sort. -/
def scoredSorted (commands : List Record) (q : Str) (st sc : Bool) :
    List (ℚ × Record) :=
  sortDesc (scoredList commands q st sc)

/-- `filter_commands_fuzzy(commands, query, search_title, search_command)`
from `cmdvault/utils.py`. -/
def filter_commands_fuzzy (commands : List Record) (query : Str)
    (st sc : Bool) : List Record :=
  if strip query = [] then commands
  else (scoredSorted commands (lower (strip query)) st sc).map Prod.snd

/-- The enabled searched fields of a record, in the fixed priority order:
title first, then command (used to state C2). -/
def priorityFields (st sc : Bool) (r : Record) : List Str :=
  (if st then [lower (orEmpty r.title?)] else []) ++
    (if sc then [lower (orEmpty r.command?)] else [])

/-- The score of a record per the spec's words: the Scorer applied to the
first enabled field that passes the Matcher, none if no enabled field
matches. -/
def firstMatchScore (q : Str) (st sc : Bool) (r : Record) : Option ℚ :=
  ((priorityFields st sc r).find? (fun f => fuzzy_match q f)).map
    (fun f => fuzzy_score q f)

/-- Replace absent/None searched fields by explicit empty strings. -/
def normalizeRecord (r : Record) : Record :=
  ⟨some (orEmpty r.title?), some (orEmpty r.command?), r.rest⟩

/-!
### Ranker lemmas
-/

theorem insertDesc_perm (x : ℚ × Record) :
    ∀ l : List (ℚ × Record), (insertDesc x l).Perm (x :: l) := by
  intro l
  induction l with
  | nil => simp [insertDesc]
  | cons y ys ih =>
    simp only [insertDesc]
    split
    · exact (ih.cons y).trans (List.Perm.swap x y ys)
    · exact List.Perm.refl _

theorem sortDesc_perm : ∀ l : List (ℚ × Record), (sortDesc l).Perm l := by
  intro l
  induction l with
  | nil => simp [sortDesc]
  | cons x xs ih =>
    exact (insertDesc_perm x (sortDesc xs)).trans (ih.cons x)

theorem insertDesc_pairwise (x : ℚ × Record) :
    ∀ l : List (ℚ × Record),
    l.Pairwise (fun u v => v.1 ≤ u.1) →
    (insertDesc x l).Pairwise (fun u v => v.1 ≤ u.1) := by
  intro l
  induction l with
  | nil => intro _; simp [insertDesc]
  | cons y ys ih =>
    intro hp
    rcases List.pairwise_cons.mp hp with ⟨hy, hys⟩
    simp only [insertDesc]
    split
    · next hlt =>
      refine List.pairwise_cons.mpr ⟨?_, ih hys⟩
      intro z hz
      have hmem := (insertDesc_perm x ys).mem_iff.mp hz
      rcases List.mem_cons.mp hmem with rfl | hz2
      · exact le_of_lt hlt
      · exact hy z hz2
    · next hge =>
      refine List.pairwise_cons.mpr ⟨?_, hp⟩
      intro z hz
      rcases List.mem_cons.mp hz with rfl | hz2
      · exact le_of_not_lt hge
      · exact le_trans (hy z hz2) (le_of_not_lt hge)

theorem sortDesc_pairwise :
    ∀ l : List (ℚ × Record),
    (sortDesc l).Pairwise (fun u v => v.1 ≤ u.1) := by
  intro l
  induction l with
  | nil => simp [sortDesc]
  | cons x xs ih => exact insertDesc_pairwise x (sortDesc xs) ih

theorem scoreEntry_snd {q : Str} {st sc : Bool} {r : Record}
    {p : ℚ × Record} (h : scoreEntry q st sc r = some p) : p.2 = r := by
  unfold scoreEntry at h
  split at h
  · cases h; rfl
  · split at h
    · cases h; rfl
    · cases h

theorem map_snd_scoredList_sublist (commands : List Record) (q : Str)
    (st sc : Bool) :
    ((scoredList commands q st sc).map Prod.snd).Sublist commands := by
  unfold scoredList
  induction commands with
  | nil => simp
  | cons r rs ih =>
    rw [List.filterMap_cons]
    rcases h : scoreEntry q st sc r with _ | p
    · simp only
      exact ih.trans (List.sublist_cons_self r rs)
    · simp only [List.map_cons]
      rw [scoreEntry_snd h]
      exact List.cons_sublist_cons.mpr ih

/-- C3: on an empty (or whitespace-only) query the ranker is the identity:
it returns the input records unchanged, in order; and on an empty input
collection it returns the empty list for every query. -/
theorem filter_identity_on_empty_query (commands : List Record) (q : Str)
    (st sc : Bool) (h : strip q = []) :
    filter_commands_fuzzy commands q st sc = commands ∧
      (∀ q2 : Str, filter_commands_fuzzy [] q2 st sc = []) := by
  constructor
  · unfold filter_commands_fuzzy
    rw [if_pos h]
  · intro q2
    unfold filter_commands_fuzzy
    split
    · rfl
    · simp [scoredSorted, scoredList, sortDesc]

/-- Witness for C3 at a concrete input. -/
theorem filter_identity_on_empty_query_witness :
    filter_commands_fuzzy [⟨some (strOf "a"), none, []⟩] (strOf "  ") true true
      = [⟨some (strOf "a"), none, []⟩] :=
  (filter_identity_on_empty_query [⟨some (strOf "a"), none, []⟩] (strOf "  ")
    true true (by decide)).1

/-- C7: the ranker's output is a sub-multiset of its input: every output
record is one of the input records, unchanged, and appears no more often
than in the input (the same `Record` values, a subset, reordered). -/
theorem filter_output_subperm_input (commands : List Record) (q : Str)
    (st sc : Bool) :
    (filter_commands_fuzzy commands q st sc).Subperm commands := by
  unfold filter_commands_fuzzy
  split
  · exact List.Perm.subperm (List.Perm.refl commands)
  · refine List.Subperm.trans ?_
      (List.Sublist.subperm
        (map_snd_scoredList_sublist commands (lower (strip q)) st sc))
    exact List.Perm.subperm
      ((sortDesc_perm (scoredList commands (lower (strip q)) st sc)).map
        Prod.snd)

theorem scoreEntry_eq_firstMatchScore (q : Str) (st sc : Bool) (r : Record) :
    scoreEntry q st sc r
      = (firstMatchScore q st sc r).map (fun s => (s, r)) := by
  unfold scoreEntry firstMatchScore priorityFields
  cases st <;> cases sc <;>
    by_cases h1 : fuzzy_match q (lower (orEmpty r.title?)) = true <;>
    by_cases h2 : fuzzy_match q (lower (orEmpty r.command?)) = true <;>
    simp [h1, h2]

/-- C2: for a non-empty trimmed query, the ranker scores each record
against exactly the first enabled field (title before command) accepted by
the Matcher — never more than one field — and drops records with no
matching enabled field: its output is the stable descending sort of the
records scored by `firstMatchScore`. -/
theorem filter_scores_first_matching_field (commands : List Record)
    (query : Str) (st sc : Bool) (h : strip query ≠ []) :
    filter_commands_fuzzy commands query st sc
      = (sortDesc (commands.filterMap (fun r =>
          (firstMatchScore (lower (strip query)) st sc r).map
            (fun s => (s, r))))).map Prod.snd := by
  unfold filter_commands_fuzzy
  rw [if_neg h]
  unfold scoredSorted scoredList
  congr 2
  exact List.filterMap_congr (fun r _ =>
    scoreEntry_eq_firstMatchScore (lower (strip query)) st sc r)

/-- Witness for C2 at a concrete input (spec's priority-field example). -/
theorem filter_scores_first_matching_field_witness :
    strip (strOf "query") ≠ [] ∧
      filter_commands_fuzzy [⟨some (strOf "alpha"), some (strOf "beta-query-term"), []⟩]
          (strOf "query") true true
        = (sortDesc (([⟨some (strOf "alpha"), some (strOf "beta-query-term"), []⟩] :
            List Record).filterMap (fun r =>
            (firstMatchScore (lower (strip (strOf "query"))) true true r).map
              (fun s => (s, r))))).map Prod.snd :=
  ⟨by decide,
    filter_scores_first_matching_field
      [⟨some (strOf "alpha"), some (strOf "beta-query-term"), []⟩]
      (strOf "query") true true (by decide)⟩

/-- C8: for a non-empty trimmed query, the ranker's output is the scored
list in non-increasing score order: each record's associated score is `≥`
the next one's. -/
theorem filter_output_sorted_descending (commands : List Record)
    (query : Str) (st sc : Bool) (h : strip query ≠ []) :
    filter_commands_fuzzy commands query st sc
      = (scoredSorted commands (lower (strip query)) st sc).map Prod.snd ∧
    List.Chain' (fun u v => v.1 ≤ u.1)
      (scoredSorted commands (lower (strip query)) st sc) := by
  constructor
  · unfold filter_commands_fuzzy
    rw [if_neg h]
  · exact (sortDesc_pairwise _).chain'

/-- Witness for C8 at a concrete input. -/
theorem filter_output_sorted_descending_witness :
    strip (strOf "co") ≠ [] ∧
      (filter_commands_fuzzy
          [⟨some (strOf "copy"), none, []⟩, ⟨some (strOf "color"), none, []⟩]
          (strOf "co") true true
        = (scoredSorted
            [⟨some (strOf "copy"), none, []⟩, ⟨some (strOf "color"), none, []⟩]
            (lower (strip (strOf "co"))) true true).map Prod.snd ∧
      List.Chain' (fun u v => v.1 ≤ u.1)
        (scoredSorted
          [⟨some (strOf "copy"), none, []⟩, ⟨some (strOf "color"), none, []⟩]
          (lower (strip (strOf "co"))) true true)) :=
  ⟨by decide,
    filter_output_sorted_descending
      [⟨some (strOf "copy"), none, []⟩, ⟨some (strOf "color"), none, []⟩]
      (strOf "co") true true (by decide)⟩

theorem scoreEntry_normalize (q : Str) (st sc : Bool) (r : Record) :
    scoreEntry q st sc (normalizeRecord r)
      = (scoreEntry q st sc r).map (Prod.map id normalizeRecord) := by
  cases st <;> cases sc <;>
    by_cases h1 : fuzzy_match q (lower (r.title?.getD [])) = true <;>
    by_cases h2 : fuzzy_match q (lower (r.command?.getD [])) = true <;>
    simp [scoreEntry, normalizeRecord, orEmpty, h1, h2, Prod.map]

theorem scoredList_normalize (commands : List Record) (q : Str)
    (st sc : Bool) :
    scoredList (commands.map normalizeRecord) q st sc
      = (scoredList commands q st sc).map (Prod.map id normalizeRecord) := by
  unfold scoredList
  rw [List.filterMap_map, List.map_filterMap]
  exact List.filterMap_congr (fun r _ => scoreEntry_normalize q st sc r)

theorem insertDesc_map_normalize (x : ℚ × Record) :
    ∀ l : List (ℚ × Record),
    insertDesc (Prod.map id normalizeRecord x)
        (l.map (Prod.map id normalizeRecord))
      = (insertDesc x l).map (Prod.map id normalizeRecord) := by
  intro l
  induction l with
  | nil => simp [insertDesc]
  | cons y ys ih =>
    simp only [List.map_cons, insertDesc, Prod.map_fst, id_eq]
    split
    · next hlt => simp only [List.map_cons, ih]
    · next hge => simp only [List.map_cons]

theorem sortDesc_map_normalize :
    ∀ l : List (ℚ × Record),
    sortDesc (l.map (Prod.map id normalizeRecord))
      = (sortDesc l).map (Prod.map id normalizeRecord) := by
  intro l
  induction l with
  | nil => simp [sortDesc]
  | cons x xs ih =>
    simp only [List.map_cons, sortDesc, ih]
    exact insertDesc_map_normalize x (sortDesc xs)

/-- C9: a record whose `title` or `command` field is absent (or holds null)
is treated exactly as if that field were the empty string: the ranker is a
total function and replacing absent fields by explicit empty strings
commutes with it, producing the same well-defined output. -/
theorem filter_missing_fields_as_empty (commands : List Record)
    (query : Str) (st sc : Bool) :
    filter_commands_fuzzy (commands.map normalizeRecord) query st sc
      = (filter_commands_fuzzy commands query st sc).map normalizeRecord := by
  unfold filter_commands_fuzzy
  split
  · rfl
  · unfold scoredSorted
    rw [scoredList_normalize, sortDesc_map_normalize, List.map_map,
      List.map_map]
    rfl

theorem insertDesc_filter_pos {p : ℚ × Record → Bool} {x : ℚ × Record}
    (hx : p x = true) (hcl : ∀ y, p y = true → y.1 = x.1) :
    ∀ l, (insertDesc x l).filter p = x :: l.filter p := by
  intro l
  induction l with
  | nil => simp [insertDesc, hx]
  | cons y ys ih =>
    simp only [insertDesc]
    split
    · next hlt =>
      have hpy : p y = false := by
        cases hpy : p y
        · rfl
        · rw [hcl y hpy] at hlt
          exact absurd hlt (lt_irrefl _)
      rw [List.filter_cons_of_neg (by simp [hpy]), ih,
        List.filter_cons_of_neg (by simp [hpy])]
    · rw [List.filter_cons_of_pos (by simp [hx])]

theorem insertDesc_filter_neg {p : ℚ × Record → Bool} {x : ℚ × Record}
    (hx : p x = false) :
    ∀ l, (insertDesc x l).filter p = l.filter p := by
  intro l
  induction l with
  | nil => simp [insertDesc, hx]
  | cons y ys ih =>
    simp only [insertDesc]
    split
    · next hlt =>
      cases hpy : p y
      · rw [List.filter_cons_of_neg (by simp [hpy]), ih,
          List.filter_cons_of_neg (by simp [hpy])]
      · rw [List.filter_cons_of_pos (by simp [hpy]), ih,
          List.filter_cons_of_pos (by simp [hpy])]
    · rw [List.filter_cons_of_neg (by simp [hx])]

theorem sortDesc_filter_class (s : ℚ) :
    ∀ l : List (ℚ × Record),
    (sortDesc l).filter (fun u => decide (u.1 = s))
      = l.filter (fun u => decide (u.1 = s)) := by
  intro l
  induction l with
  | nil => rfl
  | cons x xs ih =>
    simp only [sortDesc]
    by_cases hx : x.1 = s
    · rw [insertDesc_filter_pos (by simp [hx])
        (fun y hy => by simp at hy; rw [hy, hx]), ih,
        List.filter_cons_of_pos (by simp [hx])]
    · rw [insertDesc_filter_neg (by simp [hx]), ih,
        List.filter_cons_of_neg (by simp [hx])]

/-- C10: the sort on descending score is stable: for a non-empty trimmed
query, the records whose associated score equals any given value appear in
the ranker's output in their original relative input order (the scored list
is in input order), making the output fully deterministic on ties. -/
theorem filter_stable_on_ties (commands : List Record) (query : Str)
    (st sc : Bool) (h : strip query ≠ []) :
    filter_commands_fuzzy commands query st sc
      = (scoredSorted commands (lower (strip query)) st sc).map Prod.snd ∧
    ∀ s : ℚ,
      ((scoredSorted commands (lower (strip query)) st sc).filter
          (fun u => decide (u.1 = s))).map Prod.snd
        = ((scoredList commands (lower (strip query)) st sc).filter
            (fun u => decide (u.1 = s))).map Prod.snd := by
  refine ⟨by unfold filter_commands_fuzzy; rw [if_neg h], ?_⟩
  intro s
  unfold scoredSorted
  rw [sortDesc_filter_class s]

/-- Witness for C10 at a concrete input with an exact tie
(`"copy"` and `"cost"` both score `2/3` against `"co"`). -/
theorem filter_stable_on_ties_witness :
    strip (strOf "co") ≠ [] ∧
      (filter_commands_fuzzy
          [⟨some (strOf "copy"), none, []⟩, ⟨some (strOf "cost"), none, []⟩]
          (strOf "co") true true
        = (scoredSorted
            [⟨some (strOf "copy"), none, []⟩, ⟨some (strOf "cost"), none, []⟩]
            (lower (strip (strOf "co"))) true true).map Prod.snd ∧
      ∀ s : ℚ,
        ((scoredSorted
            [⟨some (strOf "copy"), none, []⟩, ⟨some (strOf "cost"), none, []⟩]
            (lower (strip (strOf "co"))) true true).filter
            (fun u => decide (u.1 = s))).map Prod.snd
          = ((scoredList
              [⟨some (strOf "copy"), none, []⟩, ⟨some (strOf "cost"), none, []⟩]
              (lower (strip (strOf "co"))) true true).filter
              (fun u => decide (u.1 = s))).map Prod.snd) :=
  ⟨by decide,
    filter_stable_on_ties
      [⟨some (strOf "copy"), none, []⟩, ⟨some (strOf "cost"), none, []⟩]
      (strOf "co") true true (by decide)⟩

/-- C6: the score always lies in the closed interval `[0, 1]`, and an empty
or whitespace-only query scores exactly `1`. -/
theorem fuzzy_score_bounds (q t : Str) :
    0 ≤ fuzzy_score q t ∧ fuzzy_score q t ≤ 1 ∧
      (strip q = [] → fuzzy_score q t = 1) := by
  unfold fuzzy_score
  split
  · norm_num
  · next h =>
    refine ⟨?_, ?_, fun hc => absurd hc h⟩
    · unfold smRatio ratioCalc
      split
      · norm_num
      · positivity
    · unfold smRatio ratioCalc
      split
      · norm_num
      · next hT =>
        have hm := matchesTotal_le (lower q) (lower t) (popularB (lower t))
        have hT0 : (0 : ℚ) < (((lower q).length + (lower t).length : Nat) : ℚ) := by
          exact_mod_cast Nat.pos_of_ne_zero hT
        rw [div_le_one hT0]
        have h2 : 2 * matchesTotal (lower q) (lower t) (popularB (lower t))
            ≤ (lower q).length + (lower t).length := by omega
        exact_mod_cast h2

/-- C5: a query equal to the target up to character case (in particular an
identical string) scores exactly `1`. -/
theorem fuzzy_score_self_eq_one (q t : Str) (h : lower q = lower t) :
    fuzzy_score q t = 1 := by
  unfold fuzzy_score
  split
  · rfl
  · next hq =>
    rw [← h]
    unfold smRatio
    rw [matchesTotal_self]
    unfold ratioCalc
    have hq0 : q ≠ [] := by
      intro hc
      subst hc
      exact hq rfl
    have hlen : (lower q).length ≠ 0 := by
      unfold lower
      rw [List.length_map]
      exact fun hc => hq0 (List.length_eq_zero.mp hc)
    have hne : ((lower q).length : ℚ) ≠ 0 := Nat.cast_ne_zero.mpr hlen
    rw [if_neg (by omega)]
    push_cast
    field_simp
    ring

/-- C4 (amended): for every query that is non-empty after trimming and
every target whose case-folded form is shorter than 200 characters — so
that `difflib`'s autojunk heuristic does not fire — the score equals the
reference Ratcliff/Obershelp ratio `2*M / (len(query) + len(target))` on
the case-folded strings, with `M` the total length of matching blocks from
the recursive leftmost-longest-common-substring decomposition. -/
theorem fuzzy_score_eq_reference (q t : Str) (h1 : strip q ≠ [])
    (h2 : (lower t).length < 200) :
    fuzzy_score q t = refRatio (lower q) (lower t) := by
  unfold fuzzy_score refRatio smRatio
  rw [if_neg h1]
  congr 1
  apply matchesTotal_junkFree
  intro c
  unfold popularB
  rw [decide_eq_false (by omega), Bool.false_and]

/-- Witness for the amended C4 at a concrete input. -/
theorem fuzzy_score_eq_reference_witness :
    strip (strOf "co") ≠ [] ∧ (lower (strOf "copy")).length < 200 ∧
      fuzzy_score (strOf "co") (strOf "copy")
        = refRatio (lower (strOf "co")) (lower (strOf "copy")) :=
  ⟨by decide, by decide,
    fuzzy_score_eq_reference (strOf "co") (strOf "copy")
      (by decide) (by decide)⟩

/-- The 200-character target on which the autojunk heuristic fires:
every character of the target occurs more than `200//100 + 1` times, so
`b2j` is emptied and the code finds no matching block at all. -/
def cexTarget : Str := List.replicate 196 'b' ++ strOf "aaaa"

set_option maxRecDepth 40000 in
/-- Counterexample to C4 as stated: for the non-empty query `"a"` and the
200-character target `"b"*196 ++ "aaaa"`, the code returns score `0`
(autojunk removes every occurrence of `'a'` from the index), while the
Ratcliff/Obershelp reference ratio is `2*1/201`. -/
theorem fuzzy_score_ne_reference_at_autojunk :
    strip (strOf "a") ≠ [] ∧
      fuzzy_score (strOf "a") cexTarget = 0 ∧
      refRatio (lower (strOf "a")) (lower cexTarget) = 2 / 201 ∧
      fuzzy_score (strOf "a") cexTarget
        ≠ refRatio (lower (strOf "a")) (lower cexTarget) := by
  have hm : matchesTotal (lower (strOf "a")) (lower cexTarget)
      (popularB (lower cexTarget)) = 0 := by decide
  have hr : refMatches (lower (strOf "a")) (lower cexTarget) = 1 := by decide
  have hlq : (lower (strOf "a")).length = 1 := by decide
  have hlt : (lower cexTarget).length = 200 := by decide
  refine ⟨by decide, ?_, ?_, ?_⟩
  · unfold fuzzy_score smRatio ratioCalc
    rw [if_neg (by decide), hm, hlq, hlt]
    norm_num
  · unfold refRatio ratioCalc
    rw [hr, hlq, hlt]
    norm_num
  · unfold fuzzy_score smRatio refRatio ratioCalc
    rw [if_neg (by decide), hm, hr, hlq, hlt]
    norm_num

/-- Witness for C5 at a concrete input (equal up to case). -/
theorem fuzzy_score_self_eq_one_witness :
    lower (strOf "AbC") = lower (strOf "aBc") ∧
      fuzzy_score (strOf "AbC") (strOf "aBc") = 1 :=
  ⟨by decide, fuzzy_score_self_eq_one (strOf "AbC") (strOf "aBc") (by decide)⟩

/-- Witness for C6 at concrete inputs (a non-empty and a whitespace-only
query). -/
theorem fuzzy_score_bounds_witness :
    (0 ≤ fuzzy_score (strOf "co") (strOf "copy") ∧
      fuzzy_score (strOf "co") (strOf "copy") ≤ 1 ∧
      (strip (strOf "co") = [] → fuzzy_score (strOf "co") (strOf "copy") = 1)) ∧
    strip (strOf " ") = [] ∧ fuzzy_score (strOf " ") (strOf "x") = 1 :=
  ⟨fuzzy_score_bounds (strOf "co") (strOf "copy"), by decide,
    (fuzzy_score_bounds (strOf " ") (strOf "x")).2.2 (by decide)⟩

end CmdVault
